import Mathlib

/-!
# Verification of the PyRates compile-and-execute engine

Shallow embedding of the parts of the PyRates code base (equation parser,
backend operation registry, layered execution engine, graph vectorization
pass) that the specification's claims are about, together with proofs or
refutations of those claims.

Python strings are modelled as `List Char`; Python dictionaries as
association lists (Python dicts preserve insertion order); numeric array
payloads as exact rationals.  Fallible Python code (unbound locals,
KeyError, IndexError) is modelled with `Except`/`Option`.
-/

namespace PyRates

/-! ## String utilities (Python `str` operations used by `backend/parser.py`)

`sl` converts a Lean string literal to the `List Char` representation used
throughout. -/

def sl (s : String) : List Char := s.toList

/-- Index of the first occurrence of `sub` in `s` (Python `str.find`);
`none` when `sub` does not occur. -/
def findSub (s sub : List Char) : Option Nat :=
  match s with
  | [] => if sub.isEmpty then some 0 else none
  | c :: tl =>
    if sub.isPrefixOf (c :: tl) then some 0
    else (findSub tl sub).map (· + 1)

/-- Python's `sub in s` substring test. -/
def containsSub (s sub : List Char) : Bool := (findSub s sub).isSome

/-- `s.split(sub, maxsplit=1)` at the first occurrence of `sub`
(callers guard on `containsSub`). -/
def splitOnce (s sub : List Char) : List Char × List Char :=
  match findSub s sub with
  | some i => (s.take i, s.drop (i + sub.length))
  | none => (s, [])

/-- Fuel-bounded worker for `replaceAll`; the fuel `s.length` suffices for
every non-empty pattern. -/
def replaceAllAux : Nat → List Char → List Char → List Char → List Char
  | 0, s, _, _ => s
  | fuel + 1, s, sub, rep =>
    match findSub s sub with
    | none => s
    | some i => s.take i ++ rep ++ replaceAllAux fuel (s.drop (i + sub.length)) sub rep

/-- Python `s.replace(sub, rep)` (all occurrences, left to right). -/
def replaceAll (s sub rep : List Char) : List Char :=
  replaceAllAux s.length s sub rep

/-! ## `split_equation` (pyrates/backend/parser.py, lines 852-900)

The function scans the compound assign types `+=, -=, *=, /=` with a
`for` loop; inside the loop an `elif '=' in expr` branch handles a lone
`=` after checking it is not merely part of `<=`, `>=`, `==`, `!=`.
When no branch ever fires, the trailing `return lhs, rhs, False` refers
to never-bound locals and raises `UnboundLocalError`; that abnormal exit
is modelled as `Except.error ()`. -/

def assignTypes : List (List Char) := [sl "+=", sl "-=", sl "*=", sl "/="]

def notAssignTypes : List (List Char) := [sl "<=", sl ">=", sl "==", sl "!="]

/-- The four split variants Python tries for an assign type `aty`
(lines 868-875 for compound types, lines 887-894 for the lone `=`):
`' aty '`, then `' aty'`, then `'aty '`, then `'aty'`. -/
def splitAt4 (expr aty : List Char) : List Char × List Char :=
  if containsSub expr (sl " " ++ aty ++ sl " ") then splitOnce expr (sl " " ++ aty ++ sl " ")
  else if containsSub expr (sl " " ++ aty) then splitOnce expr (sl " " ++ aty)
  else if containsSub expr (aty ++ sl " ") then splitOnce expr (aty ++ sl " ")
  else splitOnce expr aty

/-- Lines 880-886: a lone `=` counts as assignment unless some comparison
operator is present whose removal leaves no `=` in the string. -/
def loneEqIsAssign (expr : List Char) : Bool :=
  ! notAssignTypes.any (fun nat =>
      containsSub expr nat && ! containsSub (replaceAll expr nat []) (sl "="))

/-- The `for assign_type in assign_types` loop body of `split_equation`. -/
def splitLoop (expr : List Char) : List (List Char) → Except Unit (List Char × List Char × List Char)
  | [] => .error ()
  | aty :: rest =>
    if containsSub expr aty then
      .ok ((splitAt4 expr aty).1, (splitAt4 expr aty).2, aty)
    else if containsSub expr (sl "=") then
      if loneEqIsAssign expr then
        .ok ((splitAt4 expr (sl "=")).1, (splitAt4 expr (sl "=")).2, sl "=")
      else splitLoop expr rest
    else splitLoop expr rest

/-- `split_equation(expr)`; on success returns `(lhs, rhs, assign_type)`. -/
def splitEquation (expr : List Char) : Except Unit (List Char × List Char × List Char) :=
  splitLoop expr assignTypes

/-- `ExpressionParser._preprocess_expr_str`, lines 530-534 only: the
split into `lhs`/`rhs` and the fall-back `if not assign_type:
return self._preprocess_expr_str(f"x = {expr}")` that rewrites an
assignment-free expression.  The recursion is fuel-bounded; `fuel = 2`
covers the at-most-one retry the fall-back could cause. -/
def preprocessExprStr (fuel : Nat) (expr : List Char) : Except Unit (List Char × List Char) :=
  match fuel with
  | 0 => .error ()
  | fuel + 1 =>
    match splitEquation expr with
    | .error _ => .error ()
    | .ok (lhs, rhs, aty) =>
      if aty.isEmpty then preprocessExprStr fuel (sl "x = " ++ expr)
      else .ok (lhs, rhs)

/-! ### Substring lemmas -/

theorem findSub_isSome_mem {s sub : List Char} (h : containsSub s sub = true) :
    ∀ c ∈ sub, c ∈ s := by
  induction s with
  | nil =>
    intro c hc
    simp only [containsSub, findSub] at h
    split at h
    · rename_i he
      have hsub : sub = [] := by
        cases sub with
        | nil => rfl
        | cons d ds => simp [List.isEmpty] at he
      subst hsub
      simp at hc
    · exact Bool.noConfusion h
  | cons a tl ih =>
    intro c hc
    simp only [containsSub, findSub] at h
    split at h
    · rename_i hpre
      have hsub := List.IsPrefix.subset (List.isPrefixOf_iff_prefix.mp hpre)
      exact hsub hc
    · have h' : containsSub tl sub = true := by
        unfold containsSub
        cases hfs : findSub tl sub with
        | none => rw [hfs] at h; exact Bool.noConfusion h
        | some i => rfl
      exact List.mem_cons_of_mem a (ih h' c hc)

theorem containsSub_mono {s sub : List Char} (c : Char) (hc : c ∈ sub)
    (hn : c ∉ s) : containsSub s sub = false := by
  by_contra h
  rw [Bool.not_eq_false] at h
  exact hn (findSub_isSome_mem h c hc)

theorem containsSub_single {s : List Char} {c : Char} (h : c ∈ s) :
    containsSub s [c] = true := by
  induction s with
  | nil => simp at h
  | cons a tl ih =>
    unfold containsSub findSub
    split
    · rfl
    · rename_i hp
      have hc : c ∈ tl := by
        rcases List.mem_cons.mp h with h1 | h1
        · exact absurd (by simp [h1, List.isPrefixOf]) hp
        · exact h1
      have htl := ih hc
      unfold containsSub at htl
      cases hfs : findSub tl [c] with
      | none => rw [hfs] at htl; exact Bool.noConfusion htl
      | some i => simp [hfs]

theorem splitLoop_ok_aty_ne_nil (atys : List (List Char)) (e l r a : List Char)
    (hne : ∀ t ∈ atys, t ≠ []) (h : splitLoop e atys = .ok (l, r, a)) : a ≠ [] := by
  induction atys with
  | nil => exact absurd h (by simp [splitLoop])
  | cons aty rest ih =>
    unfold splitLoop at h
    split at h
    · obtain ⟨-, -, ha⟩ := by simpa using h
      exact ha ▸ hne aty (by simp)
    · split at h
      · split at h
        · obtain ⟨-, -, ha⟩ := by simpa using h
          simp [← ha, sl]
        · exact ih (fun t ht => hne t (List.mem_cons_of_mem _ ht)) h
      · exact ih (fun t ht => hne t (List.mem_cons_of_mem _ ht)) h

/-! ## Claim theorems for `split_equation` -/

/-- C6 (counterexample): the claim says an equation whose only compound
assignment operator is `/=` — e.g. `x /= y` — is split at `/=` with
left-hand side `x`.  In the code the `elif '=' in expr` branch sits
inside the `for assign_type` loop and already fires during the first
iteration (the one testing `+=`), so `x /= y` is split at the bare `=`
(via the `'= '` variant), yielding left-hand side `x /`. -/
theorem claim_C6_counterexample :
    splitEquation (sl "x /= y") ≠ .ok (sl "x", sl "y", sl "/=") ∧
    splitEquation (sl "x /= y") = .ok (sl "x /", sl "y", sl "=") := by
  refine ⟨?_, rfl⟩
  intro h
  have h2 : (Except.ok (sl "x /", sl "y", sl "=") :
      Except Unit (List Char × List Char × List Char)) = .ok (sl "x", sl "y", sl "/=") := h
  simp only [Except.ok.injEq, Prod.mk.injEq] at h2
  exact absurd h2.1 (by decide)

/-- C6 (amended): `split_equation` selects `+=` whenever it occurs; but the
lone-`=` branch is tested inside the same first loop iteration, so for an
equation containing `-=`, `*=` or `/=` (all of which contain `=`) and no
`+=`, the equation is split at the bare `=`: `x /= y` gives lhs `x /` and
assign type `=`, and likewise for `-=` and `*=`.  A plain `a = b` splits
at `=` as the claim describes. -/
theorem claim_C6_amended :
    (∀ e : List Char, containsSub e (sl "+=") = true →
      splitEquation e = .ok ((splitAt4 e (sl "+=")).1, (splitAt4 e (sl "+=")).2, sl "+=")) ∧
    splitEquation (sl "x /= y") = .ok (sl "x /", sl "y", sl "=") ∧
    splitEquation (sl "x -= y") = .ok (sl "x -", sl "y", sl "=") ∧
    splitEquation (sl "x *= y") = .ok (sl "x *", sl "y", sl "=") ∧
    splitEquation (sl "a = b") = .ok (sl "a", sl "b", sl "=") := by
  refine ⟨?_, rfl, rfl, rfl, rfl⟩
  intro e h
  unfold splitEquation assignTypes
  simp [splitLoop, h]

/-- C6 amended, witness: `a += b` contains `+=` and is split there. -/
theorem claim_C6_amended_witness :
    splitEquation (sl "a += b") = .ok (sl "a", sl "b", sl "+=") :=
  claim_C6_amended.1 (sl "a += b") rfl

/-- C10: an equation with no assignment operator at all (no `=` character,
e.g. `x + y`) makes `split_equation` terminate abnormally — the
`return lhs, rhs, False` line references locals that were never bound
(modelled as `Except.error ()`) — so a "no assignment" result is never
returned (every successful result carries a non-empty assign type) and the
fall-back in `_preprocess_expr_str` that would rewrite `x + y` into
`x = x + y` is unreachable: preprocessing `x + y` errors out instead. -/
theorem claim_C10_split_unbound :
    (∀ e : List Char, containsSub e (sl "=") = false → splitEquation e = .error ()) ∧
    (∀ e l r a, splitEquation e = .ok (l, r, a) → a ≠ []) ∧
    splitEquation (sl "x + y") = .error () ∧
    preprocessExprStr 2 (sl "x + y") = .error () := by
  refine ⟨?_, ?_, rfl, rfl⟩
  · intro e h
    have hn : ('=' : Char) ∉ e := fun hm => by
      have h' : containsSub e (sl "=") = true := containsSub_single hm
      rw [h'] at h; exact Bool.noConfusion h
    have h1 : containsSub e (sl "+=") = false := containsSub_mono '=' (by decide) hn
    have h2 : containsSub e (sl "-=") = false := containsSub_mono '=' (by decide) hn
    have h3 : containsSub e (sl "*=") = false := containsSub_mono '=' (by decide) hn
    have h4 : containsSub e (sl "/=") = false := containsSub_mono '=' (by decide) hn
    unfold splitEquation assignTypes
    simp [splitLoop, h, h1, h2, h3, h4]
  · intro e l r a h
    exact splitLoop_ok_aty_ne_nil assignTypes e l r a (by decide) h

/-- C10, witness: instantiating the universally quantified part at `x + y`,
which contains no `=`. -/
theorem claim_C10_witness : splitEquation (sl "x + y") = .error () :=
  claim_C10_split_unbound.1 (sl "x + y") rfl

/-! ## `sort_equations` (pyrates/ir/circuit.py, lines 1523-1554)

An equation is a pair `(equation string, scope)` as produced by
`CircuitIR._collect_ops`; a layer is a list of equations, and
`sort_equations` receives the collected edge-operator layers and
node-operator layers. -/

abbrev Eqn := String × String

/-- Modelled from the spec: `is_diff_eq` is imported by `ir/circuit.py` from
`pyrates.backend.parser`, but its definition is not among the source files.
Spec §4.1: left-hand sides written as `d/dt x`, `x'`, or `dx/dt` mark the
equation as a first-order ODE; the detection mirrors the one in
`ExpressionParser._preprocess_expr_str` (parser.py lines 536-549). -/
def isDiffEq (eq : String) : Bool :=
  match splitEquation (sl eq) with
  | .error _ => false
  | .ok (lhs, _, _) =>
      containsSub lhs (sl "d/dt") || containsSub lhs [Char.ofNat 39] ||
        (containsSub lhs (sl "d") && containsSub lhs (sl "/dt"))

/-- Line 1547: `any([is_diff_eq(eq) for eq, _ in node_layer])`. -/
def layerHasDiff (isDiff : String → Bool) (L : List Eqn) : Bool :=
  L.any (fun e => isDiff e.1)

/-- The clean-up loops (lines 1537-1542): Python iterates over a copy with
`enumerate` and pops index `i` of the mutated list whenever the copy's
`i`-th layer is empty; once the mutated list has shrunk below `i` this
raises `IndexError`, modelled as `none`. -/
def cleanupAux : List (List Eqn) → Nat → List (List Eqn) → Option (List (List Eqn))
  | [], _, cur => some cur
  | L :: copyRest, i, cur =>
    if L.isEmpty then
      if i < cur.length then cleanupAux copyRest (i + 1) (cur.eraseIdx i)
      else none
    else cleanupAux copyRest (i + 1) cur

def cleanupLayers (l : List (List Eqn)) : Option (List (List Eqn)) :=
  cleanupAux l 0 l

/-- The re-ordering loop (lines 1545-1549): iterate over a copy of
`node_eqs`; every layer without differential equations is appended to
`eqs_new` and removed from `node_eqs` via `pop(index(...))`, i.e. the
first occurrence equal to it is erased. -/
def promoteStep (isDiff : String → Bool) (st : List (List Eqn) × List (List Eqn))
    (L : List Eqn) : List (List Eqn) × List (List Eqn) :=
  if !(layerHasDiff isDiff L) then (st.1 ++ [L], st.2.erase L) else st

/-- `sort_equations(edge_eqs, node_eqs)` (lines 1523-1554).  `is_diff_eq`
is passed as a parameter because its definition is missing from the source
files; `isDiffEq` is its spec-modelled instantiation. -/
def sortEquations (isDiff : String → Bool) (edgeEqs nodeEqs : List (List Eqn)) :
    Option (List (List Eqn)) := do
  let edgeEqs ← cleanupLayers edgeEqs
  let nodeEqs ← cleanupLayers nodeEqs
  let st := nodeEqs.foldl (promoteStep isDiff) ([], nodeEqs)
  return st.1 ++ edgeEqs ++ st.2

theorem cleanupAux_no_empty (copy : List (List Eqn)) :
    ∀ (i : Nat) (cur : List (List Eqn)), (∀ L ∈ copy, L ≠ []) →
      cleanupAux copy i cur = some cur := by
  induction copy with
  | nil => intro i cur _; rfl
  | cons L rest ih =>
    intro i cur h
    unfold cleanupAux
    have hL : ¬L.isEmpty = true := by
      simp only [List.isEmpty_iff]
      exact h L (by simp)
    simp only [hL]
    exact ih (i + 1) cur (fun M hM => h M (List.mem_cons_of_mem _ hM))

theorem promote_fold (isDiff : String → Bool) (rest : List (List Eqn)) :
    ∀ (acc pre : List (List Eqn)), (∀ L ∈ pre, layerHasDiff isDiff L = true) →
      rest.foldl (promoteStep isDiff) (acc, pre ++ rest) =
        (acc ++ rest.filter (fun L => !layerHasDiff isDiff L),
         pre ++ rest.filter (fun L => layerHasDiff isDiff L)) := by
  induction rest with
  | nil => intro acc pre _; simp
  | cons L rest' ih =>
    intro acc pre hpre
    by_cases hL : layerHasDiff isDiff L = true
    · have step : promoteStep isDiff (acc, pre ++ L :: rest') L = (acc, pre ++ L :: rest') := by
        simp [promoteStep, hL]
      have hpre' : ∀ M ∈ pre ++ [L], layerHasDiff isDiff M = true := by
        intro M hM
        rcases List.mem_append.mp hM with h1 | h1
        · exact hpre M h1
        · simp only [List.mem_singleton] at h1; exact h1 ▸ hL
      have := ih acc (pre ++ [L]) hpre'
      simp only [List.foldl_cons, step]
      rw [show pre ++ L :: rest' = (pre ++ [L]) ++ rest' by simp, this]
      simp [hL]
    · have hnotin : L ∉ pre := fun hmem => hL (hpre L hmem)
      have herase : (pre ++ L :: rest').erase L = pre ++ rest' := by
        rw [List.erase_append_right _ hnotin, List.erase_cons_head]
      have step : promoteStep isDiff (acc, pre ++ L :: rest') L = (acc ++ [L], pre ++ rest') := by
        simp [promoteStep, hL, herase]
      have := ih (acc ++ [L]) pre hpre
      simp only [List.foldl_cons, step, this]
      simp [hL]

/-- C4 (counterexample): the claim says all edge-derived layers come before
all node layers in the sorted equation list.  In the code, node layers
without differential equations are collected into `eqs_new` *first* and
`edge_eqs` is appended after them, so a non-ODE node layer precedes the
edge batch: with one edge layer and a non-ODE plus an ODE node layer, the
result starts with the node layer, not the edge layer. -/
theorem claim_C4_counterexample :
    sortEquations isDiffEq [[("v = inp * w", "A/edge_from_B_0")]]
        [[("y = x + 2", "A/op")], [("d/dt * x = y", "A/op")]] =
      some [[("y = x + 2", "A/op")], [("v = inp * w", "A/edge_from_B_0")],
            [("d/dt * x = y", "A/op")]] ∧
    ([("y = x + 2", "A/op")] : List Eqn) ≠ [("v = inp * w", "A/edge_from_B_0")] := by
  exact ⟨rfl, by decide⟩

/-- C4 (amended): provided no layer is empty (the clean-up loops mutate the
list they index into and can otherwise raise `IndexError`),
`sort_equations` returns: first the node layers containing only
non-differential equations (original order preserved), then all
edge-derived layers, then the remaining node layers — i.e. non-ODE node
layers are promoted ahead of the edge batch rather than behind it, and
edge layers precede only the ODE-containing node layers. -/
theorem claim_C4_amended (isDiff : String → Bool) (edgeEqs nodeEqs : List (List Eqn))
    (he : ∀ L ∈ edgeEqs, L ≠ []) (hn : ∀ L ∈ nodeEqs, L ≠ []) :
    sortEquations isDiff edgeEqs nodeEqs =
      some (nodeEqs.filter (fun L => !layerHasDiff isDiff L) ++ edgeEqs ++
            nodeEqs.filter (fun L => layerHasDiff isDiff L)) := by
  unfold sortEquations cleanupLayers
  rw [cleanupAux_no_empty edgeEqs 0 edgeEqs he, cleanupAux_no_empty nodeEqs 0 nodeEqs hn]
  have := promote_fold isDiff nodeEqs [] [] (by intro L h; simp at h)
  simp only [List.nil_append] at this
  simp [this]

/-- C4 amended, witness: a concrete two-layer node batch plus one edge
layer, with all hypotheses discharged. -/
theorem claim_C4_amended_witness :
    sortEquations isDiffEq [[("v = inp * w", "A/edge_from_B_0")]]
        [[("y = x + 2", "A/op")], [("d/dt * x = y", "A/op")]] =
      some ([[("y = x + 2", "A/op")]] ++ [[("v = inp * w", "A/edge_from_B_0")]] ++
            [[("d/dt * x = y", "A/op")]]) :=
  claim_C4_amended isDiffEq _ _ (by decide) (by decide)

/-! ## `CircuitIR._map_multiple_inputs` (pyrates/ir/circuit.py, lines 1442-1488)

`inputs` is the ordered dict `in_ops_col` built by `_collect_ops`
(lines 1402-1410): keys `node/in_op/in_var` (modelled as string triples)
map to the variable-definition record found for the source's output
variable, or to `None` when that lookup raised `KeyError`.  The
`hasattr(var, 'shape')` test at line 1480 is modelled as `Option.isSome`;
only the record's `shape` field is consumed. -/

structure InVarDef where
  shape : List Nat
  deriving DecidableEq

abbrev InKey := String × String × String

/-- The `while inp in inputs_unique` suffixing loop (lines 1464-1471),
fuel-bounded: each iteration produces a fresh candidate name, so
`uniq.length + 2` fuel always suffices.  Python's `inp[-2:]` /
`inp[:-2]` are `drop (length - 2)` / `take (length - 2)`. -/
def dedupAux (uniq : List (List Char)) : Nat → Nat → List Char → List Char
  | 0, _, inp => inp
  | fuel + 1, iOld, inp =>
    if inp ∈ uniq then
      let i := iOld + 1
      let inp' :=
        if inp.drop (inp.length - 2) = sl "_" ++ sl (Nat.repr (i - 1)) then
          inp.take (inp.length - 2) ++ sl "_" ++ sl (Nat.repr i)
        else inp ++ sl "_" ++ sl (Nat.repr i)
      dedupAux uniq fuel i inp'
    else inp

/-- Loop body of lines 1462-1473: append the deduplicated name to
`inputs_unique` and record `input_mapping[inp] = key`. -/
def collectStep (st : List (List Char) × List (List Char × InKey))
    (kv : InKey × Option InVarDef) : List (List Char) × List (List Char × InKey) :=
  let inp := dedupAux st.1 (st.1.length + 2) 0 (sl kv.1.2.2)
  (st.1 ++ [inp], st.2 ++ [(inp, kv.1)])

def collectUnique (inputs : List (InKey × Option InVarDef)) :
    List (List Char) × List (List Char × InKey) :=
  inputs.foldl collectStep ([], [])

/-- `CircuitIR._map_multiple_inputs(inputs, reduce_dim)`.  For
`reduce_dim=False` Python walks `inputs_unique` by index through
`input_mapping` back into `inputs` until it reaches a value with a
`shape` — i.e. the first non-`None` record in `inputs` order — and
raises `IndexError` (modelled `none`) when there is none.  The f-string
at line 1485 renders the new shape as the Python tuple `(n*shape[0],)`
inside an already-written pair of parentheses. -/
def mapMultipleInputs (inputs : List (InKey × Option InVarDef)) (reduceDim : Bool) :
    Option (List Char × List (List Char × InKey)) :=
  let uniq := (collectUnique inputs).1
  let mapping := (collectUnique inputs).2
  if reduceDim then
    some (sl "sum((" ++ List.intercalate (sl ",") uniq ++ sl "), 0)", mapping)
  else
    match inputs.find? (fun kv => kv.2.isSome) with
    | none => none
    | some kv0 =>
      match kv0.2 with
      | none => none
      | some d =>
        if d.shape.length > 0 then
          some (sl "reshape((" ++ List.intercalate (sl ",") uniq ++ sl "), (" ++
                sl "(" ++ sl (Nat.repr (uniq.length * d.shape.headI)) ++ sl ",)" ++ sl "))",
                mapping)
        else
          some (sl "stack(" ++ List.intercalate (sl ",") uniq ++ sl ")", mapping)

/-- The source-variable names of an input dict, in order. -/
def namesOf (inputs : List (InKey × Option InVarDef)) : List (List Char) :=
  inputs.map (fun kv => sl kv.1.2.2)

def joinedNames (inputs : List (InKey × Option InVarDef)) : List Char :=
  List.intercalate (sl ",") (namesOf inputs)

/-- The combining expression the claim describes for `reduce_dim=True`. -/
def sumExprOf (inputs : List (InKey × Option InVarDef)) : List Char :=
  sl "sum((" ++ joinedNames inputs ++ sl "), 0)"

/-- The reshape expression the code actually produces for vector sources:
the tuple `(n*shape[0],)` is rendered inside an extra pair of
parentheses. -/
def reshapeExprOf (inputs : List (InKey × Option InVarDef)) (d : InVarDef) : List Char :=
  sl "reshape((" ++ joinedNames inputs ++ sl "), ((" ++
    sl (Nat.repr (inputs.length * d.shape.headI)) ++ sl ",)))"

/-- The stack expression produced for scalar sources. -/
def stackExprOf (inputs : List (InKey × Option InVarDef)) : List Char :=
  sl "stack(" ++ joinedNames inputs ++ sl ")"

def mappingOf (inputs : List (InKey × Option InVarDef)) : List (List Char × InKey) :=
  (namesOf inputs).zip (inputs.map (·.1))

/-- Backend semantics of the synthesized reduction `sum((s1,...,sn), 0)`
applied to scalar source values (`np.sum` over axis 0). -/
def sumCombine (vals : List ℚ) : ℚ := vals.sum

/-- Backend semantics of `stack(s1,...,sn)` applied to scalar source
values: the raw vector of the sources, from which each value is
recoverable. -/
def stackCombine (vals : List ℚ) : List ℚ := vals

theorem dedupAux_not_mem (uniq : List (List Char)) (fuel i : Nat) (inp : List Char)
    (h : inp ∉ uniq) (hf : 0 < fuel) : dedupAux uniq fuel i inp = inp := by
  cases fuel with
  | zero => exact absurd hf (by omega)
  | succ n => unfold dedupAux; simp [h]

theorem collectUnique_nodup_aux :
    ∀ (inputs : List (InKey × Option InVarDef)) (pre : List (List Char))
      (preMap : List (List Char × InKey)),
      (pre ++ namesOf inputs).Nodup →
      inputs.foldl collectStep (pre, preMap) =
        (pre ++ namesOf inputs, preMap ++ (namesOf inputs).zip (inputs.map (·.1))) := by
  intro inputs
  induction inputs with
  | nil => intro pre preMap _; simp [namesOf]
  | cons kv rest ih =>
    intro pre preMap hnd
    have hnd' : (pre ++ sl kv.1.2.2 :: namesOf rest).Nodup := by
      simpa [namesOf] using hnd
    have hname : sl kv.1.2.2 ∉ pre := by
      intro hmem
      exact (List.nodup_append.mp hnd').2.2 hmem (by simp)
    have hstep : collectStep (pre, preMap) kv =
        (pre ++ [sl kv.1.2.2], preMap ++ [(sl kv.1.2.2, kv.1)]) := by
      unfold collectStep
      rw [dedupAux_not_mem pre (pre.length + 2) 0 _ hname (by omega)]
    have hnd2 : ((pre ++ [sl kv.1.2.2]) ++ namesOf rest).Nodup := by
      simpa using hnd'
    have hrec := ih (pre ++ [sl kv.1.2.2]) (preMap ++ [(sl kv.1.2.2, kv.1)]) hnd2
    simp only [List.foldl_cons, hstep, hrec]
    simp [namesOf]

theorem collectUnique_nodup (inputs : List (InKey × Option InVarDef))
    (hnd : (namesOf inputs).Nodup) :
    collectUnique inputs = (namesOf inputs, mappingOf inputs) := by
  have h := collectUnique_nodup_aux inputs [] [] (by simpa using hnd)
  simpa [collectUnique, mappingOf] using h

/-- C5 (counterexample): for a variable fed by two vector-valued sources of
shape `(3,)`, the claim's combining expression would read
`reshape((a,b), (6,))`; the code's f-string renders the shape tuple inside
an extra pair of parentheses, producing `reshape((a,b), ((6,)))`. -/
theorem claim_C5_counterexample :
    mapMultipleInputs [(("n1", "op1", "a"), some ⟨[3]⟩), (("n2", "op2", "b"), some ⟨[3]⟩)]
        false =
      some (sl "reshape((a,b), ((6,)))",
            [(sl "a", ("n1", "op1", "a")), (sl "b", ("n2", "op2", "b"))]) ∧
    sl "reshape((a,b), ((6,)))" ≠ sl "reshape((a,b), (6,))" :=
  ⟨by decide, by decide⟩

/-- C5 (amended): for distinct source-variable names `s1,...,sn`,
`_map_multiple_inputs` synthesizes `sum((s1,...,sn), 0)` when
`reduce_dim` is true — and summing unit-weight scalar sources `[1,2,3]`
indeed gives `6`; with `reduce_dim` false it synthesizes
`reshape((s1,...,sn), ((n*shape,)))` for vector sources (the shape tuple
is wrapped in one extra pair of parentheses relative to the claim) and
`stack(s1,...,sn)` for scalar sources, under which the raw vector
`[1,2,3]` is recoverable; if no source variable definition was found the
shape probe runs past the input list (`IndexError`). -/
theorem claim_C5_amended (inputs : List (InKey × Option InVarDef))
    (hnd : (namesOf inputs).Nodup) :
    (mapMultipleInputs inputs true = some (sumExprOf inputs, mappingOf inputs)) ∧
    (∀ kv d, inputs.find? (fun x => x.2.isSome) = some kv → kv.2 = some d →
      mapMultipleInputs inputs false =
        some ((if d.shape.length > 0 then reshapeExprOf inputs d else stackExprOf inputs),
              mappingOf inputs)) ∧
    (inputs.find? (fun x => x.2.isSome) = none → mapMultipleInputs inputs false = none) ∧
    sumCombine [1, 2, 3] = 6 ∧ stackCombine [1, 2, 3] = [1, 2, 3] := by
  have hcu := collectUnique_nodup inputs hnd
  have hlen : (namesOf inputs).length = inputs.length := by simp [namesOf]
  refine ⟨?_, ?_, ?_, by norm_num [sumCombine], rfl⟩
  · simp only [mapMultipleInputs, hcu]
    simp [sumExprOf, joinedNames]
  · intro kv d hfind hval
    simp only [mapMultipleInputs, hcu, hfind, hval]
    by_cases hs : d.shape.length > 0
    · simp only [hs, if_true, reduceIte]
      simp [reshapeExprOf, joinedNames, sl, hlen]
    · simp only [hs, if_false, reduceIte]
      simp [hs, stackExprOf, joinedNames]
  · intro hfind
    simp only [mapMultipleInputs, hcu, hfind]
    simp

/-- C5 amended, witness: three scalar unit-weight sources named
`s1, s2, s3`; `reduce_dim=True` yields `sum((s1,s2,s3), 0)`. -/
theorem claim_C5_amended_witness :
    mapMultipleInputs [(("n1", "o1", "s1"), some ⟨[]⟩), (("n2", "o2", "s2"), some ⟨[]⟩),
        (("n3", "o3", "s3"), some ⟨[]⟩)] true =
      some (sumExprOf [(("n1", "o1", "s1"), some ⟨[]⟩), (("n2", "o2", "s2"), some ⟨[]⟩),
        (("n3", "o3", "s3"), some ⟨[]⟩)],
            mappingOf [(("n1", "o1", "s1"), some ⟨[]⟩), (("n2", "o2", "s2"), some ⟨[]⟩),
        (("n3", "o3", "s3"), some ⟨[]⟩)]) :=
  (claim_C5_amended _ (by decide)).1

/-! ## Layered execution engine (`backend_wrapper.py`, `NumpyBackend`)

A backend variable store maps variable names to their rational payloads.
Every operation that survives into a compiled layer is assignment-style:
it reads some variables, applies its kernel and writes the result into
its target variable's backing storage.  `dt` and all other constants
live in the store like any variable. -/

abbrev Store := String → ℚ

structure SOp where
  target : String
  reads : List String
  kernel : List ℚ → ℚ

def applyOp (σ : Store) (o : SOp) : Store :=
  Function.update σ o.target (o.kernel (o.reads.map σ))

/-- `NumpyBackend.eval_layer` (lines 1093-1094): sequential evaluation of
one layer's operations. -/
def evalLayer (σ : Store) (L : List SOp) : Store := L.foldl applyOp σ

/-- Mutual data-independence of two operations: distinct targets, and
neither reads the other's target.  Spec §5 calls this the scheduler's
core invariant for operations sharing a layer. -/
def indepOp (a b : SOp) : Prop :=
  a.target ≠ b.target ∧ a.target ∉ b.reads ∧ b.target ∉ a.reads

def layerIndep (L : List SOp) : Prop := L.Pairwise indepOp

theorem indepOp_symm : Symmetric indepOp := by
  intro a b h
  exact ⟨h.1.symm, h.2.2, h.2.1⟩

theorem applyOp_comm {a b : SOp} (h : indepOp a b) (σ : Store) :
    applyOp (applyOp σ a) b = applyOp (applyOp σ b) a := by
  obtain ⟨ht, har, hbr⟩ := h
  unfold applyOp
  have hbreads : b.reads.map (Function.update σ a.target (a.kernel (a.reads.map σ))) =
      b.reads.map σ := by
    apply List.map_congr_left
    intro r hr
    exact Function.update_noteq (fun heq => har (by rw [← heq]; exact hr)) _ σ
  have hareads : a.reads.map (Function.update σ b.target (b.kernel (b.reads.map σ))) =
      a.reads.map σ := by
    apply List.map_congr_left
    intro r hr
    exact Function.update_noteq (fun heq => hbr (by rw [← heq]; exact hr)) _ σ
  rw [hbreads, hareads]
  exact Function.update_comm ht _ _ σ

/-- `NumpyBackend.layer_run` (lines 1316-1322) spawns one thread per
operation and joins them; the store the threads leave behind is the one
obtained by evaluating the operations in whatever order the OS scheduler
interleaved them — for mutually independent operations, any permutation
yields the same store. -/
theorem evalLayer_perm {L1 L2 : List SOp} (hp : L1.Perm L2) (hind : layerIndep L1)
    (σ : Store) : evalLayer σ L1 = evalLayer σ L2 := by
  unfold evalLayer
  refine hp.foldl_eq' ?_ σ
  intro x hx y hy z
  by_cases hxy : x = y
  · subst hxy; rfl
  · exact applyOp_comm (List.Pairwise.forall indepOp_symm hind hx hy hxy) z

/-- A compiled graph as `run` sees it after the `compile()` mapping: the
retained evaluation layers in execution order, plus the sampling layer
that `run` pops from the evaluation list and runs threaded. -/
structure RunCfg where
  layers : List (List SOp)
  sampling : List SOp

/-- One step of `_run_inp`/`_run_no_inp` (lines 1229-1233, 1245-1251):
run the threaded sampling layer when the step index is due (`sched` is
the thread interleaving the OS chose for this event), write the external
inputs into their variables, then evaluate each retained layer in
order. -/
def runStep (cfg : RunCfg) (sched : List SOp) (inp : List (String × ℚ))
    (samplingSteps step : Nat) (σ : Store) : Store :=
  let σ1 := if step % samplingSteps = 0 then evalLayer σ sched else σ
  let σ2 := inp.foldl (fun σ kv => Function.update σ kv.1 kv.2) σ1
  cfg.layers.foldl evalLayer σ2

def runLoop (cfg : RunCfg) (sched : Nat → List SOp) (inputs : Nat → List (String × ℚ))
    (steps samplingSteps : Nat) (σ : Store) : Store :=
  (List.range steps).foldl
    (fun σ step => runStep cfg (sched step) (inputs step) samplingSteps step σ) σ

/-- The trailing sample of `_run_inp`/`_run_no_inp` (lines 1234-1235,
1252-1253), kept with Python's operator precedence:
`step + (1 % sampling_steps) == 0` for the last bound `step`; with
`steps = 0` the loop variable was never bound and Python raises
`NameError` (modelled `none`).  This final sample is evaluated
sequentially (`eval_layer`), not threaded. -/
def runFinal (cfg : RunCfg) (steps samplingSteps : Nat) (σ : Store) : Option Store :=
  if steps = 0 then none
  else some (if (steps - 1) + (1 % samplingSteps) = 0 then evalLayer σ cfg.sampling else σ)

/-- `NumpyBackend.run` (lines 769-882) after layer compilation: execute
the simulation loop, then evaluate every requested output variable into
the results table (lines 866-868). -/
def backendRun (cfg : RunCfg) (sched : Nat → List SOp) (inputs : Nat → List (String × ℚ))
    (steps samplingSteps : Nat) (σ : Store) (outputs : List (String × String)) :
    Option (List (String × ℚ)) :=
  match runFinal cfg steps samplingSteps (runLoop cfg sched inputs steps samplingSteps σ) with
  | none => none
  | some σf => some (outputs.map (fun kv => (kv.1, σf kv.2)))

/-- C2: for a fixed compiled graph, equation set, input sequence, step
size (baked into the operation kernels and the store) and number of
steps, two invocations of `run` from identical initial state produce
identical output tables.  The only scheduling freedom is the thread
interleaving of the sampling layer inside `layer_run`, modelled as the
per-event permutations `sched1`/`sched2`; determinism holds given the
scheduler invariant that the sampling layer's operations are mutually
data-independent (spec §5). -/
theorem claim_C2_run_deterministic (cfg : RunCfg) (sched1 sched2 : Nat → List SOp)
    (inputs : Nat → List (String × ℚ)) (steps samplingSteps : Nat) (σ : Store)
    (outputs : List (String × String))
    (hind : layerIndep cfg.sampling)
    (h1 : ∀ k, (sched1 k).Perm cfg.sampling) (h2 : ∀ k, (sched2 k).Perm cfg.sampling) :
    backendRun cfg sched1 inputs steps samplingSteps σ outputs =
      backendRun cfg sched2 inputs steps samplingSteps σ outputs := by
  have hlayer : ∀ (k : Nat) (τ : Store), evalLayer τ (sched1 k) = evalLayer τ (sched2 k) := by
    intro k τ
    have hi1 : layerIndep (sched1 k) :=
      (List.Perm.pairwise_iff (fun h => indepOp_symm h) (h1 k)).mpr hind
    rw [evalLayer_perm (h1 k) hi1 τ, ← evalLayer_perm (h2 k)
      ((List.Perm.pairwise_iff (fun h => indepOp_symm h) (h2 k)).mpr hind) τ]
  have hloop : runLoop cfg sched1 inputs steps samplingSteps σ =
      runLoop cfg sched2 inputs steps samplingSteps σ := by
    unfold runLoop
    apply List.foldl_ext
    intro τ step _
    unfold runStep
    by_cases hs : step % samplingSteps = 0
    · simp only [hs, if_pos, hlayer step τ]
    · simp only [hs, if_neg, reduceIte]
  unfold backendRun
  rw [hloop]

/-- C2, witness: a sampling layer of two independent operations, run once
with the program order and once with the OS having swapped the two
threads. -/
theorem claim_C2_witness :
    backendRun ⟨[], [⟨"u", ["x"], fun l => l.headI⟩, ⟨"v", ["y"], fun l => l.headI⟩]⟩
        (fun _ => [⟨"u", ["x"], fun l => l.headI⟩, ⟨"v", ["y"], fun l => l.headI⟩])
        (fun _ => []) 1 1 (fun _ => 0) [("out", "u")] =
      backendRun ⟨[], [⟨"u", ["x"], fun l => l.headI⟩, ⟨"v", ["y"], fun l => l.headI⟩]⟩
        (fun _ => [⟨"v", ["y"], fun l => l.headI⟩, ⟨"u", ["x"], fun l => l.headI⟩])
        (fun _ => []) 1 1 (fun _ => 0) [("out", "u")] := by
  refine claim_C2_run_deterministic _ _ _ _ 1 1 _ _ ?_ (fun _ => List.Perm.refl _)
    (fun _ => List.Perm.swap _ _ _)
  refine List.Pairwise.cons ?_ (List.Pairwise.cons (by simp) List.Pairwise.nil)
  intro b hb
  rw [List.mem_singleton] at hb
  subst hb
  exact ⟨by decide, by decide, by decide⟩

/-! ## Euler lowering of a differential equation (C3)

`ExpressionParser.parse_expr` (parser.py lines 219-254) schedules the
right-hand side as `delta = f(x)` in the backend's current layer
(lines 239-243); `_update_lhs` (lines 476-510) then advances one backend
layer, schedules the euler update `x += dt * delta` there (the stack
`expr_stack + ['dt', 'rhs', '*', '+=']` parses to an assign operation
whose inlined argument is the product `dt * rhs`), and retreats the
cursor. -/

/-- Backend layer-cursor state: `NumpyBackend.layers` and
`NumpyBackend.layer`. -/
structure CursorState (α : Type) where
  layers : List (List α)
  layer : Nat

/-- `NumpyBackend.add_layer` (lines 1032-1049). -/
def addLayer (st : CursorState α) (toBeginning : Bool) : CursorState α :=
  if toBeginning then ⟨[[]] ++ st.layers, 0⟩
  else ⟨st.layers ++ [[]], st.layers.length⟩

/-- `NumpyBackend.next_layer` (lines 1051-1055). -/
def nextLayer (st : CursorState α) : CursorState α :=
  if st.layer = st.layers.length - 1 then addLayer st false
  else ⟨st.layers, st.layer + 1⟩

/-- Modelled from the spec: the cursor retreat `previous_layer` called by
`ExpressionParser._update_lhs` (parser.py line 508) resolves on the
backend class from `pyrates/backend/numpy_backend.py`, a module that is
not among the source files; spec §4.2 describes the operation ("retreats
cursor, inserting a new layer at position 0 if already at 0"), matching
`NumpyBackend.previous_layers` in backend_wrapper.py (lines 1057-1061). -/
def previousLayer (st : CursorState α) : CursorState α :=
  if st.layer = 0 then addLayer st true
  else ⟨st.layers, st.layer - 1⟩

/-- `self.layers[self.layer].append(op)` (line 1028). -/
def addToCurrent (st : CursorState α) (op : α) : CursorState α :=
  ⟨st.layers.set st.layer (st.layers.getD st.layer [] ++ [op]), st.layer⟩

/-- `_update_lhs` with the euler solver, as a transformation of the
layer-cursor state: advance one layer, append the assign operation
there, retreat the cursor. -/
def updateLhsEuler (st : CursorState α) (assignOp : α) : CursorState α :=
  previousLayer (addToCurrent (nextLayer st) assignOp)

/-- The operation computing `delta = f(x)` (the parsed right-hand side
assigned to the fresh `x_update_0` variable, parser.py lines 230-243). -/
def deltaOp (f : ℚ → ℚ) : SOp := ⟨"delta", ["x"], fun l => f l.headI⟩

/-- The euler left-hand-side update `x += dt * delta`. -/
def eulerAssignOp : SOp :=
  ⟨"x", ["x", "dt", "delta"], fun l => l.headI + l.tail.headI * l.tail.tail.headI⟩

/-- One simulation step of the two compiled layers of `d/dt x = f(x)`. -/
def eulerStep (f : ℚ → ℚ) (σ : Store) : Store :=
  evalLayer (evalLayer σ [deltaOp f]) [eulerAssignOp]

def eulerTraj (f : ℚ → ℚ) (σ : Store) (n : Nat) : Store := (eulerStep f)^[n] σ

theorem eulerStep_dt (f : ℚ → ℚ) (σ : Store) : eulerStep f σ "dt" = σ "dt" := by
  unfold eulerStep evalLayer applyOp deltaOp eulerAssignOp
  simp only [List.foldl_cons, List.foldl_nil]
  rw [Function.update_noteq (by decide), Function.update_noteq (by decide)]

theorem eulerTraj_dt (f : ℚ → ℚ) (σ : Store) (n : Nat) :
    eulerTraj f σ n "dt" = σ "dt" := by
  induction n with
  | zero => rfl
  | succ n ih =>
    unfold eulerTraj
    rw [Function.iterate_succ_apply', eulerStep_dt]
    exact ih

theorem eulerStep_x (f : ℚ → ℚ) (σ : Store) :
    eulerStep f σ "x" = σ "x" + σ "dt" * f (σ "x") := by
  unfold eulerStep evalLayer applyOp deltaOp eulerAssignOp
  simp only [List.foldl_cons, List.foldl_nil, List.map_cons, List.map_nil]
  rw [Function.update_same]
  simp only [List.headI, List.tail]
  rw [Function.update_noteq (by decide), Function.update_noteq (by decide),
    Function.update_same]

/-- C3: for a first-order ODE `d/dt x = f(x)` lowered with the euler
solver, (a) after each simulation step the state satisfies
`x[n+1] = x[n] + dt * f(x[n])` exactly (exact arithmetic models the
numeric payload), and (b) `_update_lhs` schedules the left-hand-side
update in the layer directly after the one holding the right-hand-side
evaluation, and restores the layer cursor afterwards. -/
theorem claim_C3_euler_update (f : ℚ → ℚ) (σ0 : Store) (n : Nat)
    (st : CursorState SOp) (op : SOp) (h : st.layer < st.layers.length) :
    (eulerTraj f σ0 (n + 1) "x" =
      eulerTraj f σ0 n "x" + σ0 "dt" * f (eulerTraj f σ0 n "x")) ∧
    (updateLhsEuler st op).layer = st.layer ∧
    (updateLhsEuler st op).layers.getD (st.layer + 1) [] =
      st.layers.getD (st.layer + 1) [] ++ [op] ∧
    (∀ i, i ≤ st.layer → (updateLhsEuler st op).layers.getD i [] = st.layers.getD i []) := by
  have hlen : 0 < st.layers.length := Nat.lt_of_le_of_lt (Nat.zero_le _) h
  refine ⟨?_, ?_⟩
  · unfold eulerTraj
    rw [Function.iterate_succ_apply', eulerStep_x]
    rw [show (eulerStep f)^[n] σ0 "dt" = σ0 "dt" from eulerTraj_dt f σ0 n]
  · by_cases hc : st.layer = st.layers.length - 1
    · have hne0 : st.layers.length ≠ 0 := by omega
      have hgetD : (st.layers ++ [([] : List SOp)]).getD st.layers.length [] = [] := by
        rw [List.getD_eq_getElem?_getD, List.getElem?_append_right (le_refl _)]
        simp
      have hU : updateLhsEuler st op =
          ⟨(st.layers ++ [[]]).set st.layers.length [op], st.layers.length - 1⟩ := by
        simp [updateLhsEuler, nextLayer, addLayer, addToCurrent, previousLayer, hc, hgetD, hne0]
      rw [hU]
      refine ⟨by show st.layers.length - 1 = st.layer; omega, ?_, ?_⟩
      · show ((st.layers ++ [[]]).set st.layers.length [op]).getD (st.layer + 1) [] =
          st.layers.getD (st.layer + 1) [] ++ [op]
        have hn : st.layer + 1 = st.layers.length := by omega
        rw [hn, List.getD_eq_getElem?_getD, List.getElem?_set_self (by simp),
          List.getD_eq_getElem?_getD, List.getElem?_eq_none (by omega)]
        rfl
      · intro i hi
        show ((st.layers ++ [[]]).set st.layers.length [op]).getD i [] = st.layers.getD i []
        rw [List.getD_eq_getElem?_getD, List.getElem?_set_ne (by omega),
          List.getElem?_append, if_pos (by omega), List.getD_eq_getElem?_getD]
    · have hlt : st.layer + 1 < st.layers.length := by omega
      have hU : updateLhsEuler st op =
          ⟨st.layers.set (st.layer + 1) (st.layers.getD (st.layer + 1) [] ++ [op]),
            st.layer⟩ := by
        simp [updateLhsEuler, nextLayer, addLayer, addToCurrent, previousLayer, hc]
      rw [hU]
      refine ⟨rfl, ?_, ?_⟩
      · show (st.layers.set (st.layer + 1) (st.layers.getD (st.layer + 1) [] ++ [op])).getD
          (st.layer + 1) [] = st.layers.getD (st.layer + 1) [] ++ [op]
        rw [List.getD_eq_getElem?_getD, List.getElem?_set_self hlt]
        rfl
      · intro i hi
        show (st.layers.set (st.layer + 1) (st.layers.getD (st.layer + 1) [] ++ [op])).getD
          i [] = st.layers.getD i []
        rw [List.getD_eq_getElem?_getD, List.getElem?_set_ne (by omega),
          List.getD_eq_getElem?_getD]

/-- C3, witness: the dynamics `f(x) = 2` with `dt = 1/10` after 3 steps,
and a backend that sits on layer 0 of a single-layer stack. -/
theorem claim_C3_witness :
    (eulerTraj (fun _ => 2) (fun s => if s = "dt" then 1/10 else 0) 4 "x" =
      eulerTraj (fun _ => 2) (fun s => if s = "dt" then 1/10 else 0) 3 "x" +
        (fun s : String => if s = "dt" then (1 : ℚ)/10 else 0) "dt" *
          (fun _ : ℚ => (2 : ℚ)) (eulerTraj (fun _ => 2) (fun s => if s = "dt" then 1/10 else 0) 3 "x")) ∧
    (updateLhsEuler (⟨[[]], 0⟩ : CursorState SOp) eulerAssignOp).layer = 0 ∧
    (updateLhsEuler (⟨[[]], 0⟩ : CursorState SOp) eulerAssignOp).layers.getD 1 [] =
      ([[]] : List (List SOp)).getD 1 [] ++ [eulerAssignOp] ∧
    (∀ i, i ≤ 0 → (updateLhsEuler (⟨[[]], 0⟩ : CursorState SOp) eulerAssignOp).layers.getD i [] =
      ([[]] : List (List SOp)).getD i []) :=
  claim_C3_euler_update (fun _ => 2) (fun s => if s = "dt" then 1/10 else 0) 3
    ⟨[[]], 0⟩ eulerAssignOp (by decide)

/-! ## In-place mutation of the caller's outputs dict (C9)

`NumpyBackend.run` finishes with
`for key, var in outputs.items(): outputs[key] = var.eval()` followed by
`return outputs` (backend_wrapper.py lines 866-868 and 882): the
caller-supplied dictionary object is mutated entry by entry and the very
same object is returned.  Python object identity is modelled with a
small heap of dictionaries addressed by reference (index); allocating a
fresh dictionary would append a new cell. -/

/-- A stored output value: a still-unevaluated variable handle, or an
evaluated numeric payload. -/
inductive OutVal where
  | handle (var : String)
  | value (v : ℚ)

abbrev OutDict := List (String × OutVal)

/-- Heap of dictionary objects; a reference is an index into `cells`. -/
structure Heap where
  cells : List OutDict

/-- `var.eval()` against the final store. -/
def evalOutVal (σ : Store) : OutVal → OutVal
  | .handle v => .value (σ v)
  | .value v => .value v

/-- The output phase of `run`: overwrite each entry of the dict behind
reference `r` with its evaluated value — in place — and return the same
reference. -/
def runOutputPhase (h : Heap) (r : Nat) (σ : Store) : Heap × Nat :=
  (⟨h.cells.set r ((h.cells.getD r []).map (fun kv => (kv.1, evalOutVal σ kv.2)))⟩, r)

/-- C9: `run` mutates the caller-supplied outputs dictionary in place —
every value is replaced by its evaluated payload while the key set is
preserved — and returns the very same dictionary object: the returned
reference equals the argument reference, no heap cell other than the
argument's changes, and no fresh dictionary is allocated (the heap's
cell count is unchanged). -/
theorem claim_C9_outputs_in_place (h : Heap) (r : Nat) (σ : Store)
    (hr : r < h.cells.length) :
    (runOutputPhase h r σ).2 = r ∧
    (runOutputPhase h r σ).1.cells.length = h.cells.length ∧
    (∀ r2, r2 ≠ r → (runOutputPhase h r σ).1.cells.getD r2 [] = h.cells.getD r2 []) ∧
    (runOutputPhase h r σ).1.cells.getD r [] =
      (h.cells.getD r []).map (fun kv => (kv.1, evalOutVal σ kv.2)) ∧
    ((runOutputPhase h r σ).1.cells.getD r []).map Prod.fst =
      (h.cells.getD r []).map Prod.fst := by
  refine ⟨rfl, by simp [runOutputPhase], ?_, ?_, ?_⟩
  · intro r2 hne
    show (h.cells.set r _).getD r2 [] = h.cells.getD r2 []
    rw [List.getD_eq_getElem?_getD, List.getElem?_set_ne (fun heq => hne heq.symm),
      List.getD_eq_getElem?_getD]
  · show (h.cells.set r _).getD r [] = _
    rw [List.getD_eq_getElem?_getD, List.getElem?_set_self hr]
    rfl
  · show ((h.cells.set r _).getD r []).map Prod.fst = _
    rw [List.getD_eq_getElem?_getD, List.getElem?_set_self hr]
    simp

/-- C9, witness: one dict `{"out": handle x}` on the heap, evaluated
against a store where `x = 5`. -/
theorem claim_C9_witness :
    (runOutputPhase ⟨[[("out", OutVal.handle "x")]]⟩ 0 (fun _ => 5)).2 = 0 ∧
    (runOutputPhase ⟨[[("out", OutVal.handle "x")]]⟩ 0 (fun _ => 5)).1.cells.length =
      (Heap.mk [[("out", OutVal.handle "x")]]).cells.length ∧
    (∀ r2, r2 ≠ 0 →
      (runOutputPhase ⟨[[("out", OutVal.handle "x")]]⟩ 0 (fun _ => 5)).1.cells.getD r2 [] =
        (Heap.mk [[("out", OutVal.handle "x")]]).cells.getD r2 []) ∧
    (runOutputPhase ⟨[[("out", OutVal.handle "x")]]⟩ 0 (fun _ => 5)).1.cells.getD 0 [] =
      ((Heap.mk [[("out", OutVal.handle "x")]]).cells.getD 0 []).map
        (fun kv => (kv.1, evalOutVal (fun _ => 5) kv.2)) ∧
    ((runOutputPhase ⟨[[("out", OutVal.handle "x")]]⟩ 0 (fun _ => 5)).1.cells.getD 0 []).map
        Prod.fst =
      ((Heap.mk [[("out", OutVal.handle "x")]]).cells.getD 0 []).map Prod.fst :=
  claim_C9_outputs_in_place ⟨[[("out", OutVal.handle "x")]]⟩ 0 (fun _ => 5) (by decide)

/-! ## Operation-registry bookkeeping: `add_op` and `compile` (C7)

`NumpyBackend.add_op` (backend_wrapper.py lines 940-1030) computes a
scope-qualified, collision-deduplicated local `name` (lines 975-985) but
then constructs the operation with `self.ops[op]['name']` — the *generic
per-kind* registry name (e.g. every addition is named `numpy_add`,
lines 1001/1003/1012); the deduplicated local name is only used for the
constant-folded variable.  Both `op_indices` (line 1029) and the
`input_ops` slot-nulling (lines 1015-1017) therefore key on the generic
name. -/

structure ROp where
  name : String
  args : List String
  inputOps : List String
  constant : Bool
  deriving DecidableEq

structure RegState where
  layers : List (List (Option ROp))
  layer : Nat
  opIndices : List (String × (Nat × Nat))
  deriving DecidableEq

/-- Python dict assignment `self.op_indices[name] = (layer, pos)`:
overwrite in place or append. -/
def setIdx (m : List (String × (Nat × Nat))) (k : String) (v : Nat × Nat) :
    List (String × (Nat × Nat)) :=
  if m.any (fun p => p.1 = k) then m.map (fun p => if p.1 = k then (k, v) else p)
  else m ++ [(k, v)]

def lookupIdx (m : List (String × (Nat × Nat))) (k : String) : Option (Nat × Nat) :=
  (m.find? (fun p => p.1 = k)).map (·.2)

/-- `self.layers[idx_1][idx_2] = None` (line 1017). -/
def nullSlot (layers : List (List (Option ROp))) (ij : Nat × Nat) :
    List (List (Option ROp)) :=
  layers.set ij.1 ((layers.getD ij.1 []).set ij.2 none)

/-- The layer bookkeeping of `add_op` (lines 1014-1030): null out the
recorded slot of every operation listed in the new operation's
`input_ops`, then — unless the operation was constant-folded — append it
to the current layer and record its `(layer, position)` under its
(generic) name.  `op_indices[op_name]` raises `KeyError` when the name
was never recorded, modelled as `none`. -/
def addOp (st : RegState) (o : ROp) : Option RegState := do
  let layers ← o.inputOps.foldlM (fun ls nm =>
      match lookupIdx st.opIndices nm with
      | none => none
      | some ij => some (nullSlot ls ij)) st.layers
  if o.constant then
    return { st with layers := layers }
  else
    let cur := layers.getD st.layer []
    return { layers := layers.set st.layer (cur ++ [some o]), layer := st.layer,
             opIndices := setIdx st.opIndices o.name (st.layer, cur.length) }

/-- `compile()` (lines 1096-1110): drop nulled slots, then drop layers
made empty, preserving the order of the remaining layers; the mapping
sends each original layer index to its compacted index (`none` for a
dropped layer). -/
def compileLayers (layers : List (List (Option ROp))) :
    List (List ROp) × List (Option Nat) :=
  layers.foldl (fun (st : List (List ROp) × List (Option Nat)) L =>
    let Lc := L.filterMap id
    if Lc.isEmpty then (st.1, st.2 ++ [none])
    else (st.1 ++ [Lc], st.2 ++ [some st.1.length])) ([], [])

/-- The failing trace for C7: two additions (both carry the generic
registry name `numpy_add`), then a multiplication consuming the *first*
addition as an inlined argument. -/
def opAddAB : ROp := ⟨"numpy_add", ["a", "b"], [], false⟩

def opAddCD : ROp := ⟨"numpy_add", ["c", "d"], [], false⟩

def opMulConsuming : ROp := ⟨"numpy_multiply", ["a", "b", "x"], ["numpy_add"], false⟩

/-- C7 (code bug, evaluated at the failing input): starting from a fresh
backend, add `a+b`, then `c+d`, then `(a+b)*x` which consumes the first
addition.  Because `op_indices` keys on the generic name `numpy_add`,
the second addition overwrote the first one's entry, so `add_op` nulls
the slot of the *unconsumed* `c+d` — the consumed `a+b` stays scheduled.
After `compile()` the layer sequence still contains `a+b` even though it
is also merged into the multiplication's argument list (it would be
evaluated twice per step), while `c+d` has been dropped although nothing
consumed it. -/
theorem claim_C7_wrong_slot_nulled :
    ((addOp ⟨[[]], 0, []⟩ opAddAB).bind (fun st => addOp st opAddCD)).bind
        (fun st => addOp st opMulConsuming) =
      some ⟨[[some opAddAB, none, some opMulConsuming]], 0,
            [("numpy_add", (0, 1)), ("numpy_multiply", (0, 2))]⟩ ∧
    (compileLayers [[some opAddAB, none, some opMulConsuming]]).1 =
      [[opAddAB, opMulConsuming]] ∧
    opAddAB.name ∈ opMulConsuming.inputOps ∧
    opAddAB ∈ [[opAddAB, opMulConsuming]].flatten ∧
    opAddCD ∉ [[opAddAB, opMulConsuming]].flatten := by
  refine ⟨by decide, by decide, by decide, by decide, by decide⟩

/-! ## Constant folding in `add_op`/`generate_op` (C8)

`PyRatesOp.generate_op` (backend_wrapper.py lines 193-363) walks the
call's arguments: an operation argument is spliced into the new
operation's argument list (its arguments merged, minus those whose names
are already collected) and counted in `n_vars`; a backend variable is
appended and counted; a tuple contributes `(`/`)` markers and its
members; anything else becomes a named constant `c_<n>` (the class-level
counter `PyRatesOp.n_consts`).  `results['constant'] = (n_vars == 0)`
(lines 338-340), and `add_op` (lines 1020-1026) then evaluates a constant
operation eagerly, registers the result as a `constant` variable (a plain
value, `NumpyVar.__new__` line 103-104) and returns it without appending
anything to a layer. -/

/-- An entry of a built operation's merged argument list. -/
inductive MArg where
  | mvar (name : String) (v : ℚ)
  | mconst (name : String) (v : ℚ)
  | marker (s : String)
  deriving DecidableEq

/-- A built (non-folded) operation: generic name, merged argument list,
`constant` flag (`n_vars == 0`). -/
structure POp where
  name : String
  args : List MArg
  constant : Bool
  deriving DecidableEq

/-- A tuple member passed to `add_op`: operation, variable or constant
(tuples do not nest in the arg walk, lines 241-287). -/
inductive TArg where
  | tvar (name : String) (v : ℚ)
  | tconst (v : ℚ)
  | top (o : POp)
  deriving DecidableEq

/-- An argument passed to `add_op`. -/
inductive AArg where
  | avar (name : String) (v : ℚ)
  | aconst (v : ℚ)
  | aop (o : POp)
  | atup (elems : List TArg)
  deriving DecidableEq

def margName : MArg → String
  | .mvar n _ => n
  | .mconst n _ => n
  | .marker s => s

/-- Splice a consumed operation's arguments, dropping those whose names
are already collected (`pop_indices`, lines 216-226). -/
def spliceArgs (collected : List MArg) (new : List MArg) : List MArg :=
  collected ++ new.filter (fun a => !((collected.map margName).contains (margName a)))

/-- State threaded through the argument walk of `generate_op`. -/
structure GenSt where
  args : List MArg
  nVars : Nat
  inputOps : List String
  nConsts : Nat

def tupStep (st : GenSt) (t : TArg) : GenSt :=
  match t with
  | .top o =>
      ⟨spliceArgs st.args o.args, st.nVars + 1, st.inputOps ++ [o.name], st.nConsts⟩
  | .tvar n v =>
      ⟨st.args ++ [.mvar n v], st.nVars + 1, st.inputOps, st.nConsts⟩
  | .tconst v =>
      ⟨st.args ++ [.mconst ("c_" ++ Nat.repr (st.nConsts + 1)) v], st.nVars, st.inputOps,
        st.nConsts + 1⟩

def genStep (st : GenSt) (a : AArg) : GenSt :=
  match a with
  | .aop o =>
      ⟨spliceArgs st.args o.args, st.nVars + 1, st.inputOps ++ [o.name], st.nConsts⟩
  | .avar n v =>
      ⟨st.args ++ [.mvar n v], st.nVars + 1, st.inputOps, st.nConsts⟩
  | .aconst v =>
      ⟨st.args ++ [.mconst ("c_" ++ Nat.repr (st.nConsts + 1)) v], st.nVars, st.inputOps,
        st.nConsts + 1⟩
  | .atup es =>
      let st1 : GenSt := ⟨st.args ++ [MArg.marker "("], st.nVars, st.inputOps, st.nConsts⟩
      let st2 := es.foldl tupStep st1
      ⟨st2.args ++ [MArg.marker ")"], st2.nVars, st2.inputOps, st2.nConsts⟩

/-- The argument walk of `PyRatesOp.generate_op` (lines 211-299). -/
def generateOp (args : List AArg) (nConsts : Nat) : GenSt :=
  args.foldl genStep ⟨[], 0, [], nConsts⟩

def evalMArg : MArg → Option ℚ
  | .mvar _ v => some v
  | .mconst _ v => some v
  | .marker _ => none

def margValues (l : List MArg) : List ℚ := l.filterMap evalMArg

/-- `add_op` for a generic operation key (lines 999-1030, the
`PyRatesOp` path): build the record via `generate_op`; when `n_vars == 0`
the operation is marked constant, evaluated eagerly, and the caller
receives the folded value while the layer stack is untouched; otherwise
the operation object is appended to the current layer.  (The `input_ops`
slot-nulling of lines 1014-1017 is modelled by `addOp` above; a
variable-free call has no operation arguments, so no slot is touched.) -/
def addOpGeneric (layers : List (List POp)) (layer : Nat) (name : String)
    (kernel : List ℚ → ℚ) (args : List AArg) (nConsts : Nat) :
    (POp ⊕ ℚ) × List (List POp) :=
  let g := generateOp args nConsts
  let o : POp := ⟨name, g.args, g.nVars == 0⟩
  if g.nVars == 0 then (.inr (kernel (margValues g.args)), layers)
  else (.inl o, layers.set layer (layers.getD layer [] ++ [o]))

def margIsVar : MArg → Bool
  | .mvar _ _ => true
  | _ => false

/-- An operation's merged argument list contains a backend variable. -/
def opHasVar (o : POp) : Bool := o.args.any margIsVar

/-- A tuple member contributes no backend variable, transitively through
merged operation argument lists. -/
def targVarFree : TArg → Bool
  | .tvar _ _ => false
  | .tconst _ => true
  | .top o => !(opHasVar o)

/-- An argument contains no backend variable, transitively. -/
def aargVarFree : AArg → Bool
  | .avar _ _ => false
  | .aconst _ => true
  | .aop o => !(opHasVar o)
  | .atup es => es.all targVarFree

def argsVarFree (args : List AArg) : Bool := args.all aargVarFree

/-- Every operation object among the arguments carries a backend
variable in its merged argument list — the invariant of operations that
escape `add_op` un-folded (spec §3 makes variable/constant names
globally unique, so splicing never drops a variable for a like-named
constant). -/
def aargOpsWF : AArg → Prop
  | .aop o => opHasVar o = true
  | .atup es => ∀ t ∈ es, (match t with | .top o => opHasVar o = true | _ => True)
  | _ => True

def argsOpsWF (args : List AArg) : Prop := ∀ a ∈ args, aargOpsWF a

def targNVars : TArg → Nat
  | .tvar _ _ => 1
  | .tconst _ => 0
  | .top _ => 1

def aargNVars : AArg → Nat
  | .avar _ _ => 1
  | .aconst _ => 0
  | .aop _ => 1
  | .atup es => (es.map targNVars).sum

theorem tupFold_nVars (es : List TArg) :
    ∀ st : GenSt, (es.foldl tupStep st).nVars = st.nVars + (es.map targNVars).sum := by
  induction es with
  | nil => intro st; simp
  | cons t rest ih =>
    intro st
    rw [List.foldl_cons, ih]
    cases t <;> simp [tupStep, targNVars] <;> omega

theorem genStep_nVars (st : GenSt) (a : AArg) :
    (genStep st a).nVars = st.nVars + aargNVars a := by
  cases a with
  | avar n v => simp [genStep, aargNVars]
  | aconst v => simp [genStep, aargNVars]
  | aop o => simp [genStep, aargNVars]
  | atup es => simp [genStep, aargNVars, tupFold_nVars]

theorem generateOp_nVars (args : List AArg) (nConsts : Nat) :
    (generateOp args nConsts).nVars = (args.map aargNVars).sum := by
  unfold generateOp
  suffices h : ∀ (st : GenSt), (args.foldl genStep st).nVars = st.nVars + (args.map aargNVars).sum by
    simpa using h ⟨[], 0, [], nConsts⟩
  induction args with
  | nil => intro st; simp
  | cons a rest ih =>
    intro st
    rw [List.foldl_cons, ih, genStep_nVars]
    simp [Nat.add_assoc]

theorem aargNVars_zero_of_varFree {a : AArg} (hwf : aargOpsWF a)
    (hfree : aargVarFree a = true) : aargNVars a = 0 := by
  cases a with
  | avar n v => exact absurd hfree (by simp [aargVarFree])
  | aconst v => rfl
  | aop o =>
    exfalso
    simp only [aargVarFree, Bool.not_eq_true'] at hfree
    simp only [aargOpsWF] at hwf
    rw [hwf] at hfree
    exact Bool.noConfusion hfree
  | atup es =>
    simp only [aargNVars, List.sum_eq_zero_iff]
    intro x hx
    simp only [List.mem_map] at hx
    obtain ⟨t, ht, rfl⟩ := hx
    simp only [aargVarFree, List.all_eq_true] at hfree
    have hf := hfree t ht
    have hw := hwf t ht
    cases t with
    | tvar n v => exact absurd hf (by simp [targVarFree])
    | tconst v => rfl
    | top o =>
      exfalso
      simp only [targVarFree, Bool.not_eq_true'] at hf
      simp only at hw
      rw [hw] at hf
      exact Bool.noConfusion hf

theorem aargVarFree_of_nVars_zero {a : AArg} (h : aargNVars a = 0) :
    aargVarFree a = true := by
  cases a with
  | avar n v => exact absurd h (by simp [aargNVars])
  | aconst v => rfl
  | aop o => exact absurd h (by simp [aargNVars])
  | atup es =>
    simp only [aargNVars, List.sum_eq_zero_iff] at h
    simp only [aargVarFree, List.all_eq_true]
    intro t ht
    have := h (targNVars t) (List.mem_map_of_mem _ ht)
    cases t with
    | tvar n v => exact absurd this (by simp [targNVars])
    | tconst v => rfl
    | top o => exact absurd this (by simp [targNVars])

/-- C8: for a call to `add_op` whose arguments — transitively through
merged operation argument lists — contain no backend variables (and
whose operation arguments satisfy the invariant of un-folded operations),
`generate_op` counts zero variables, the operation is marked constant,
evaluated eagerly, and the caller receives the folded value instead of
an operation object, with no layer of the graph touched; conversely a
zero count forces variable-freeness, and any operation object `add_op`
does hand back is one whose `constant` flag is false. -/
theorem claim_C8_constant_folding (layers : List (List POp)) (layer : Nat)
    (name : String) (kernel : List ℚ → ℚ) (nConsts : Nat) :
    (∀ args : List AArg, argsOpsWF args → argsVarFree args = true →
      (generateOp args nConsts).nVars = 0 ∧
      addOpGeneric layers layer name kernel args nConsts =
        (.inr (kernel (margValues (generateOp args nConsts).args)), layers)) ∧
    (∀ args : List AArg, (generateOp args nConsts).nVars = 0 → argsVarFree args = true) ∧
    (∀ (args : List AArg) (o : POp),
      (addOpGeneric layers layer name kernel args nConsts).1 = .inl o →
      o.constant = false) := by
  refine ⟨?_, ?_, ?_⟩
  · intro args hwf hfree
    have hz : (generateOp args nConsts).nVars = 0 := by
      rw [generateOp_nVars, List.sum_eq_zero_iff]
      intro x hx
      simp only [List.mem_map] at hx
      obtain ⟨a, ha, rfl⟩ := hx
      refine aargNVars_zero_of_varFree (hwf a ha) ?_
      rw [argsVarFree, List.all_eq_true] at hfree
      exact hfree a ha
    refine ⟨hz, ?_⟩
    unfold addOpGeneric
    simp [hz]
  · intro args h
    rw [generateOp_nVars, List.sum_eq_zero_iff] at h
    rw [argsVarFree, List.all_eq_true]
    intro a ha
    exact aargVarFree_of_nVars_zero (h (aargNVars a) (List.mem_map_of_mem _ ha))
  · intro args o h
    unfold addOpGeneric at h
    by_cases hz : ((generateOp args nConsts).nVars == 0) = true
    · rw [if_pos hz] at h
      exact absurd h (by simp)
    · rw [if_neg hz] at h
      simp only [Sum.inl.injEq] at h
      rw [← h]
      show ((generateOp args nConsts).nVars == 0) = false
      simpa using hz

/-- C8, witness: `add_op` applied to the two plain constants `2` and `3`
with a summing kernel: folded value returned, layers untouched. -/
theorem claim_C8_witness :
    (generateOp [AArg.aconst 2, AArg.aconst 3] 0).nVars = 0 ∧
    addOpGeneric [[]] 0 "numpy_add" (fun l => l.sum) [AArg.aconst 2, AArg.aconst 3] 0 =
      (.inr ((fun l : List ℚ => l.sum)
        (margValues (generateOp [AArg.aconst 2, AArg.aconst 3] 0).args)), [[]]) :=
  (claim_C8_constant_folding [[]] 0 "numpy_add" (fun l => l.sum) 0).1
    [AArg.aconst 2, AArg.aconst 3]
    (by
      intro a ha
      rcases List.mem_cons.mp ha with rfl | ha
      · trivial
      · rcases List.mem_cons.mp ha with rfl | ha
        · trivial
        · simp at ha)
    (by decide)

/-! ## Graph vectorization pass (C1)

`CircuitIR.optimize_graph_in_place` / `_vectorize_nodes_in_place`
(ir/circuit.py lines 457-534) group all nodes sharing one operator-graph
object into a single vectorized node and record, per original node key,
`label_map[node_key] = (vector_node_name, batch_index)` (index
`len(collapsed_node) - 1` after extending, `0` on creation).
Operator-graph object identity is modelled as a key `opGraph : Nat`; a
node's simulated state is one rational value.  `VectorizedNodeIR` lives
in a module absent from the source files; its `extend`/`len` are
modelled from the spec (§3, §4.4): extending appends one batch element
along the new leading axis and `len` is the current batch size.  The
`while name_idx <= max_node_idx` loop (lines 508-521) guarantees each
collapsed node a fresh name `vector_node<i>`; groups are therefore
identified by their creation index. -/

structure VNode where
  opGraph : Nat
  value : ℚ
  deriving DecidableEq

structure VecNode where
  opGraph : Nat
  values : List ℚ
  deriving DecidableEq

structure VecPassState where
  groupOf : List (Nat × Nat)
  groups : List VecNode
  labelMap : List (String × (Nat × Nat))
  deriving DecidableEq

/-- `node_op_graph_map[op_graph]` (the `try`/`except KeyError` lookup of
lines 492-503). -/
def lookupGroup (m : List (Nat × Nat)) (og : Nat) : Option Nat :=
  (m.find? (fun p => p.1 = og)).map (·.2)

/-- One iteration of the `for node_key, node in old_nodes` loop of
`_vectorize_nodes_in_place` (lines 490-529). -/
def vecStep (st : VecPassState) (kn : String × VNode) : VecPassState :=
  match lookupGroup st.groupOf kn.2.opGraph with
  | some gi =>
      let g := st.groups.getD gi ⟨0, []⟩
      let g2 : VecNode := ⟨g.opGraph, g.values ++ [kn.2.value]⟩
      ⟨st.groupOf, st.groups.set gi g2,
       st.labelMap ++ [(kn.1, (gi, g2.values.length - 1))]⟩
  | none =>
      ⟨st.groupOf ++ [(kn.2.opGraph, st.groups.length)],
       st.groups ++ [⟨kn.2.opGraph, [kn.2.value]⟩],
       st.labelMap ++ [(kn.1, (st.groups.length, 0))]⟩

/-- The node half of `optimize_graph_in_place`. -/
def vectorizeNodes (nodes : List (String × VNode)) : VecPassState :=
  nodes.foldl vecStep ⟨[], [], []⟩

/-- Sum of squared differences of two series; the normalized RMS error of
the claim is zero exactly when this is. -/
def sumSqDiff (xs ys : List ℚ) : ℚ :=
  ((xs.zip ys).map (fun p => (p.1 - p.2) ^ 2)).sum

/-- `node_op_graph_map` consistency: every mapped group index is in
range and the collapsed node there carries the mapped operator graph. -/
def stWF (st : VecPassState) : Prop :=
  ∀ p ∈ st.groupOf, p.2 < st.groups.length ∧
    (st.groups.getD p.2 ⟨0, []⟩).opGraph = p.1

/-- The pass has filed node `kn`: its `label_map` entry points at a batch
cell holding the node's value inside a collapsed node with the node's
operator graph. -/
def nodeDone (st : VecPassState) (kn : String × VNode) : Prop :=
  ∃ gi bi, (st.labelMap.find? (fun p => p.1 = kn.1)).map (·.2) = some (gi, bi) ∧
    gi < st.groups.length ∧
    (st.groups.getD gi ⟨0, []⟩).opGraph = kn.2.opGraph ∧
    (st.groups.getD gi ⟨0, []⟩).values[bi]? = some kn.2.value

theorem vecStep_wf {st : VecPassState} (h : stWF st) (kn : String × VNode) :
    stWF (vecStep st kn) := by
  unfold vecStep
  cases hg : lookupGroup st.groupOf kn.2.opGraph with
  | some gi =>
    intro p hp
    obtain ⟨h1, h2⟩ := h p hp
    refine ⟨by simpa using h1, ?_⟩
    by_cases hpi : p.2 = gi
    · subst hpi
      rw [List.getD_eq_getElem?_getD, List.getElem?_set_self (by simpa using h1)]
      simp only [Option.getD_some]
      rw [← h2, List.getD_eq_getElem?_getD]
    · rw [List.getD_eq_getElem?_getD, List.getElem?_set_ne (fun he => hpi he.symm),
        ← List.getD_eq_getElem?_getD]
      exact h2
  | none =>
    intro p hp
    rcases List.mem_append.mp hp with hp1 | hp1
    · obtain ⟨h1, h2⟩ := h p hp1
      refine ⟨by simp; omega, ?_⟩
      rw [List.getD_eq_getElem?_getD, List.getElem?_append_left h1,
        ← List.getD_eq_getElem?_getD]
      exact h2
    · simp only [List.mem_singleton] at hp1
      subst hp1
      refine ⟨by simp, ?_⟩
      rw [List.getD_eq_getElem?_getD, List.getElem?_append_right (le_refl _)]
      simp

theorem vecStep_preserves {st : VecPassState} (kn0 kn : String × VNode)
    (hd : nodeDone st kn0) : nodeDone (vecStep st kn) kn0 := by
  obtain ⟨gi, bi, hfind, hlt, hog, hval⟩ := hd
  obtain ⟨pr, hpr, hpr2⟩ := Option.map_eq_some'.mp hfind
  have hbi : bi < (st.groups.getD gi ⟨0, []⟩).values.length := by
    by_contra hc
    rw [List.getElem?_eq_none (by omega)] at hval
    exact Option.noConfusion hval
  unfold vecStep
  cases hg : lookupGroup st.groupOf kn.2.opGraph with
  | some gj =>
    refine ⟨gi, bi, ?_, by simpa using hlt, ?_, ?_⟩
    · rw [List.find?_append, hpr]
      simpa using hpr2
    · by_cases hij : gi = gj
      · subst hij
        show ((st.groups.set gi _).getD gi ⟨0, []⟩).opGraph = kn0.2.opGraph
        rw [List.getD_eq_getElem?_getD, List.getElem?_set_self (by simpa using hlt)]
        exact hog
      · show ((st.groups.set gj _).getD gi ⟨0, []⟩).opGraph = kn0.2.opGraph
        rw [List.getD_eq_getElem?_getD, List.getElem?_set_ne (fun he => hij he.symm),
          ← List.getD_eq_getElem?_getD]
        exact hog
    · by_cases hij : gi = gj
      · subst hij
        show ((st.groups.set gi _).getD gi ⟨0, []⟩).values[bi]? = some kn0.2.value
        rw [List.getD_eq_getElem?_getD, List.getElem?_set_self (by simpa using hlt)]
        show ((st.groups.getD gi ⟨0, []⟩).values ++ _)[bi]? = some kn0.2.value
        rw [List.getElem?_append_left hbi]
        exact hval
      · show ((st.groups.set gj _).getD gi ⟨0, []⟩).values[bi]? = some kn0.2.value
        rw [List.getD_eq_getElem?_getD, List.getElem?_set_ne (fun he => hij he.symm),
          ← List.getD_eq_getElem?_getD]
        exact hval
  | none =>
    refine ⟨gi, bi, ?_, by simp; omega, ?_, ?_⟩
    · rw [List.find?_append, hpr]
      simpa using hpr2
    · show ((st.groups ++ _).getD gi ⟨0, []⟩).opGraph = kn0.2.opGraph
      rw [List.getD_eq_getElem?_getD, List.getElem?_append_left hlt,
        ← List.getD_eq_getElem?_getD]
      exact hog
    · show ((st.groups ++ _).getD gi ⟨0, []⟩).values[bi]? = some kn0.2.value
      rw [List.getD_eq_getElem?_getD, List.getElem?_append_left hlt,
        ← List.getD_eq_getElem?_getD]
      exact hval

theorem vecStep_new {st : VecPassState} (hwf : stWF st) (kn : String × VNode)
    (hkey : ∀ p ∈ st.labelMap, p.1 ≠ kn.1) : nodeDone (vecStep st kn) kn := by
  have hnone : st.labelMap.find? (fun p => p.1 = kn.1) = none :=
    List.find?_eq_none.mpr (fun x hx => by simpa using hkey x hx)
  unfold vecStep
  cases hg : lookupGroup st.groupOf kn.2.opGraph with
  | some gi =>
    obtain ⟨pr, hpr1, hpr2⟩ := Option.map_eq_some'.mp hg
    have hmem := List.mem_of_find?_eq_some hpr1
    have hprog : pr.1 = kn.2.opGraph := by simpa using List.find?_some hpr1
    obtain ⟨hlt, hog⟩ := hwf pr hmem
    subst hpr2
    refine ⟨pr.2, (st.groups.getD pr.2 ⟨0, []⟩).values.length, ?_, by simpa using hlt,
      ?_, ?_⟩
    · rw [List.find?_append, hnone]
      simp
    · show ((st.groups.set pr.2 _).getD pr.2 ⟨0, []⟩).opGraph = kn.2.opGraph
      rw [List.getD_eq_getElem?_getD, List.getElem?_set_self hlt]
      show (st.groups.getD pr.2 ⟨0, []⟩).opGraph = kn.2.opGraph
      rw [hog, hprog]
    · show ((st.groups.set pr.2 _).getD pr.2 ⟨0, []⟩).values[_]? = some kn.2.value
      rw [List.getD_eq_getElem?_getD, List.getElem?_set_self hlt]
      show ((st.groups.getD pr.2 ⟨0, []⟩).values ++ [kn.2.value])[_]? = some kn.2.value
      rw [List.getElem?_append_right (le_refl _)]
      simp
  | none =>
    refine ⟨st.groups.length, 0, ?_, by simp, ?_, ?_⟩
    · rw [List.find?_append, hnone]
      simp
    · show ((st.groups ++ [(⟨kn.2.opGraph, [kn.2.value]⟩ : VecNode)]).getD st.groups.length
        ⟨0, []⟩).opGraph = kn.2.opGraph
      rw [List.getD_eq_getElem?_getD, List.getElem?_append_right (le_refl _)]
      simp
    · show ((st.groups ++ [(⟨kn.2.opGraph, [kn.2.value]⟩ : VecNode)]).getD st.groups.length
        ⟨0, []⟩).values[0]? = some kn.2.value
      rw [List.getD_eq_getElem?_getD, List.getElem?_append_right (le_refl _)]
      simp

theorem vectorize_fold (rest : List (String × VNode)) :
    ∀ st : VecPassState, stWF st →
      (∀ p ∈ st.labelMap, ∀ kn ∈ rest, p.1 ≠ kn.1) →
      ((rest.map (·.1)).Nodup) →
      stWF (rest.foldl vecStep st) ∧
      (∀ kn0, nodeDone st kn0 → nodeDone (rest.foldl vecStep st) kn0) ∧
      (∀ kn ∈ rest, nodeDone (rest.foldl vecStep st) kn) := by
  induction rest with
  | nil =>
    intro st hwf _ _
    exact ⟨hwf, fun _ hd => hd, by intro kn h; simp at h⟩
  | cons kn rest2 ih =>
    intro st hwf hkey hnd
    have hwf2 := vecStep_wf hwf kn
    have hknotin : kn.1 ∉ rest2.map (·.1) := by
      have := hnd
      simp only [List.map_cons, List.nodup_cons] at this
      exact this.1
    have hkey2 : ∀ p ∈ (vecStep st kn).labelMap, ∀ kn2 ∈ rest2, p.1 ≠ kn2.1 := by
      intro p hp kn2 hkn2
      have hsplit : p ∈ st.labelMap ∨ p.1 = kn.1 := by
        unfold vecStep at hp
        cases hg : lookupGroup st.groupOf kn.2.opGraph <;> rw [hg] at hp <;>
          rcases List.mem_append.mp hp with h1 | h1 <;>
            first
              | exact Or.inl h1
              | (simp only [List.mem_singleton] at h1; right; rw [h1])
      rcases hsplit with h1 | h1
      · exact hkey p h1 kn2 (List.mem_cons_of_mem _ hkn2)
      · rw [h1]
        intro hcontra
        exact hknotin (hcontra ▸ List.mem_map_of_mem (·.1) hkn2)
    have hnd2 : (rest2.map (·.1)).Nodup := by
      simp only [List.map_cons, List.nodup_cons] at hnd
      exact hnd.2
    obtain ⟨w1, w2, w3⟩ := ih (vecStep st kn) hwf2 hkey2 hnd2
    rw [List.foldl_cons]
    refine ⟨w1, ?_, ?_⟩
    · intro kn0 hd
      exact w2 kn0 (vecStep_preserves kn0 kn hd)
    · intro kn1 hm
      rcases List.mem_cons.mp hm with h1 | h1
      · subst h1
        exact w2 kn1 (vecStep_new hwf kn1 (fun p hp => hkey p hp kn1 (by simp)))
      · exact w3 kn1 h1

theorem vectorizeNodes_done (nodes : List (String × VNode))
    (hnd : (nodes.map (·.1)).Nodup) :
    ∀ kn ∈ nodes, nodeDone (vectorizeNodes nodes) kn := by
  have h := vectorize_fold nodes ⟨[], [], []⟩ (by intro p hp; simp at hp)
    (by intro p hp; simp at hp) hnd
  exact h.2.2

theorem sumSqDiff_self (xs : List ℚ) : sumSqDiff xs xs = 0 := by
  induction xs with
  | nil => rfl
  | cons x rest ih => simpa [sumSqDiff] using ih

/-! ### `label_map` well-formedness and injectivity

Each `vecStep` files its node under a fresh `(group, batch index)` cell:
extending a collapsed node points at the newly appended batch slot,
creating one points at slot `0` of a new group.  Hence all `label_map`
values are in range and pairwise distinct. -/

def labelsWF (st : VecPassState) : Prop :=
  (∀ e ∈ st.labelMap, e.2.1 < st.groups.length ∧
     e.2.2 < (st.groups.getD e.2.1 ⟨0, []⟩).values.length) ∧
  st.labelMap.Pairwise (fun a b => a.2 ≠ b.2)

theorem vecStep_labelsWF {st : VecPassState} (hwf : stWF st) (hl : labelsWF st)
    (kn : String × VNode) : labelsWF (vecStep st kn) := by
  obtain ⟨hb, hpw⟩ := hl
  cases hg : lookupGroup st.groupOf kn.2.opGraph with
  | some gi =>
    obtain ⟨pr, hpr1, hpr2⟩ := Option.map_eq_some'.mp hg
    obtain ⟨hglt, -⟩ := hwf pr (List.mem_of_find?_eq_some hpr1)
    rw [hpr2] at hglt
    have hstep : vecStep st kn =
        ⟨st.groupOf,
         st.groups.set gi ⟨(st.groups.getD gi ⟨0, []⟩).opGraph,
           (st.groups.getD gi ⟨0, []⟩).values ++ [kn.2.value]⟩,
         st.labelMap ++ [(kn.1, (gi,
           ((st.groups.getD gi ⟨0, []⟩).values ++ [kn.2.value]).length - 1))]⟩ := by
      unfold vecStep
      rw [hg]
    rw [hstep]
    constructor
    · intro e he
      rcases List.mem_append.mp he with h1 | h1
      · obtain ⟨hb1, hb2⟩ := hb e h1
        refine ⟨by simpa using hb1, ?_⟩
        by_cases hei : e.2.1 = gi
        · rw [hei]
          simp only [List.getD_eq_getElem?_getD]
          rw [List.getElem?_set_self hglt]
          simp only [Option.getD_some, List.length_append, List.length_singleton]
          rw [hei, List.getD_eq_getElem?_getD] at hb2
          omega
        · simp only [List.getD_eq_getElem?_getD]
          rw [List.getElem?_set_ne (fun he2 => hei he2.symm), ← List.getD_eq_getElem?_getD]
          exact hb2
      · simp only [List.mem_singleton] at h1
        subst h1
        refine ⟨by simpa using hglt, ?_⟩
        simp only [List.getD_eq_getElem?_getD]
        rw [List.getElem?_set_self hglt]
        simp
    · rw [List.pairwise_append]
      refine ⟨hpw, by simp, ?_⟩
      intro a ha b hbm
      simp only [List.mem_singleton] at hbm
      subst hbm
      obtain ⟨hb1, hb2⟩ := hb a ha
      intro hcontra
      by_cases hai : a.2.1 = gi
      · rw [hai] at hb2
        have : a.2.2 = (st.groups.getD gi ⟨0, []⟩).values.length + 1 - 1 := by
          rw [show a.2 = (gi, ((st.groups.getD gi ⟨0, []⟩).values ++ [kn.2.value]).length - 1)
            from hcontra]
          simp
        omega
      · exact hai (by rw [show a.2 = (gi, _) from hcontra])
  | none =>
    have hstep : vecStep st kn =
        ⟨st.groupOf ++ [(kn.2.opGraph, st.groups.length)],
         st.groups ++ [⟨kn.2.opGraph, [kn.2.value]⟩],
         st.labelMap ++ [(kn.1, (st.groups.length, 0))]⟩ := by
      unfold vecStep
      rw [hg]
    rw [hstep]
    constructor
    · intro e he
      rcases List.mem_append.mp he with h1 | h1
      · obtain ⟨hb1, hb2⟩ := hb e h1
        refine ⟨by simp; omega, ?_⟩
        simp only [List.getD_eq_getElem?_getD]
        rw [List.getElem?_append_left hb1, ← List.getD_eq_getElem?_getD]
        exact hb2
      · simp only [List.mem_singleton] at h1
        subst h1
        refine ⟨by simp, ?_⟩
        simp only [List.getD_eq_getElem?_getD]
        rw [List.getElem?_append_right (le_refl _)]
        simp
    · rw [List.pairwise_append]
      refine ⟨hpw, by simp, ?_⟩
      intro a ha b hbm
      simp only [List.mem_singleton] at hbm
      subst hbm
      obtain ⟨hb1, -⟩ := hb a ha
      intro hcontra
      have : a.2.1 = st.groups.length := by rw [show a.2 = (st.groups.length, 0) from hcontra]
      omega

theorem vectorize_fold_labels (rest : List (String × VNode)) :
    ∀ st : VecPassState, stWF st → labelsWF st →
      labelsWF (rest.foldl vecStep st) := by
  induction rest with
  | nil => intro st _ hl; exact hl
  | cons kn rest2 ih =>
    intro st hwf hl
    rw [List.foldl_cons]
    exact ih (vecStep st kn) (vecStep_wf hwf kn) (vecStep_labelsWF hwf hl kn)

theorem vectorizeNodes_labelsWF (nodes : List (String × VNode)) :
    labelsWF (vectorizeNodes nodes) :=
  vectorize_fold_labels nodes ⟨[], [], []⟩ (by intro p hp; simp at hp)
    ⟨by intro e he; simp at he, List.Pairwise.nil⟩

/-- `label_map[key]` as the pass's later clients read it (the `KeyError`
case of a missing key is modelled `none`). -/
def lookupLabel (lm : List (String × (Nat × Nat))) (k : String) : Option (Nat × Nat) :=
  (lm.find? (fun p => p.1 = k)).map (·.2)

def labelOf (st : VecPassState) (k : String) : Nat × Nat :=
  (lookupLabel st.labelMap k).getD (0, 0)

theorem find?_nodes (nodes : List (String × VNode)) (hnd : (nodes.map (·.1)).Nodup)
    (k : String) (nd : VNode) (hmem : (k, nd) ∈ nodes) :
    nodes.find? (fun p => p.1 = k) = some (k, nd) := by
  induction nodes with
  | nil => simp at hmem
  | cons hd tl ih =>
    simp only [List.map_cons, List.nodup_cons] at hnd
    by_cases hk : hd.1 = k
    · rcases List.mem_cons.mp hmem with h1 | h1
      · rw [← h1] at hk ⊢
        simp [List.find?_cons, hk]
      · exfalso
        apply hnd.1
        rw [hk]
        exact List.mem_map_of_mem (·.1) h1
    · rcases List.mem_cons.mp hmem with h1 | h1
      · exact absurd (by rw [← h1]) hk
      · rw [List.find?_cons_of_neg _ (by simpa using hk)]
        exact ih hnd.2 h1

theorem labelOf_nodeDone {nodes : List (String × VNode)} {k : String} {nd : VNode}
    (hnd : (nodes.map (·.1)).Nodup) (hmem : (k, nd) ∈ nodes) :
    lookupLabel (vectorizeNodes nodes).labelMap k = some (labelOf (vectorizeNodes nodes) k) ∧
    (labelOf (vectorizeNodes nodes) k).1 < (vectorizeNodes nodes).groups.length ∧
    ((vectorizeNodes nodes).groups.getD (labelOf (vectorizeNodes nodes) k).1
      ⟨0, []⟩).opGraph = nd.opGraph ∧
    ((vectorizeNodes nodes).groups.getD (labelOf (vectorizeNodes nodes) k).1
      ⟨0, []⟩).values[(labelOf (vectorizeNodes nodes) k).2]? = some nd.value := by
  obtain ⟨gi, bi, hfind, hlt, hog, hval⟩ := vectorizeNodes_done nodes hnd (k, nd) hmem
  have hfind' : lookupLabel (vectorizeNodes nodes).labelMap k = some (gi, bi) := hfind
  have hlab : labelOf (vectorizeNodes nodes) k = (gi, bi) := by
    unfold labelOf
    rw [hfind']
    rfl
  rw [hlab]
  exact ⟨hfind', hlt, hog, hval⟩

theorem labelOf_inj {nodes : List (String × VNode)} (hnd : (nodes.map (·.1)).Nodup)
    {k1 k2 : String} {nd1 nd2 : VNode} (h1 : (k1, nd1) ∈ nodes) (h2 : (k2, nd2) ∈ nodes)
    (hne : k1 ≠ k2) :
    labelOf (vectorizeNodes nodes) k1 ≠ labelOf (vectorizeNodes nodes) k2 := by
  obtain ⟨g1, b1, hf1, -, -, -⟩ := vectorizeNodes_done nodes hnd (k1, nd1) h1
  obtain ⟨g2, b2, hf2, -, -, -⟩ := vectorizeNodes_done nodes hnd (k2, nd2) h2
  obtain ⟨e1, he1, he1v⟩ := Option.map_eq_some'.mp hf1
  obtain ⟨e2, he2, he2v⟩ := Option.map_eq_some'.mp hf2
  have hk1 : e1.1 = k1 := by simpa using List.find?_some he1
  have hk2 : e2.1 = k2 := by simpa using List.find?_some he2
  have hm1 := List.mem_of_find?_eq_some he1
  have hm2 := List.mem_of_find?_eq_some he2
  have hane : e1 ≠ e2 := fun hEq => hne (by rw [← hk1, ← hk2, hEq])
  have hsym : Symmetric (fun a b : String × (Nat × Nat) => a.2 ≠ b.2) :=
    fun a b h hEq => h hEq.symm
  have hval := List.Pairwise.forall hsym (vectorizeNodes_labelsWF nodes).2 hm1 hm2 hane
  have hl1 : labelOf (vectorizeNodes nodes) k1 = e1.2 := by
    unfold labelOf lookupLabel
    rw [he1, Option.map_some']
    rfl
  have hl2 : labelOf (vectorizeNodes nodes) k2 = e2.2 := by
    unfold labelOf lookupLabel
    rw [he2, Option.map_some']
    rfl
  rw [hl1, hl2]
  exact hval

/-! ## Edge half of the vectorization pass (C1)

`_vectorize_edges_in_place` (ir/circuit.py lines 536-651) rewrites each
old edge onto the collapsed nodes: for an edge without its own operator
graph (`edge_ir is None`, the branch of lines 565-575) it looks up
`label_map[source]` and `label_map[target]` and adds one edge carrying
`source_idx=[source_idx]`, `target_idx=[target_idx]` and the original
`weight`/`delay`.  Edges carrying an `edge_ir` (lines 576-648) spawn
dedicated coupling nodes; the networks quantified over here connect node
state variables directly, so that branch is out of scope and every edge
takes the `None` branch.  A missing `label_map` key raises `KeyError`,
modelled `none`.  `_vectorize_edges` (lines 655-751), called per ordered
node pair by `optimize_graph_in_place` (lines 468-473, default
`vectorize=True`), merges all parallel edges of a pair: `weight_col`
collects non-`None` weights, `delay_col` collects non-`None` delays
(dropping `None` entries, lines 719-722), the index lists are
concatenated (lines 723-730), and the merged edge stores
`delay_col if delay_col else None` and likewise for weight (lines
740-743).  The modelled nodes carry one state variable each, so all
edges of a pair fall into a single `source_var`/`target_var` class and
the `while edges` loop (lines 685-751) consumes the pair's whole edge
list in its first iteration. -/

structure OEdge where
  source : String
  target : String
  weight : ℚ
  delay : Option ℚ
  deriving DecidableEq

structure VEdge0 where
  source : Nat
  target : Nat
  sourceIdx : List Nat
  targetIdx : List Nat
  weight : ℚ
  delay : Option ℚ
  deriving DecidableEq

structure VEdgeM where
  source : Nat
  target : Nat
  sourceIdx : List Nat
  targetIdx : List Nat
  weight : Option (List ℚ)
  delay : Option (List ℚ)
  deriving DecidableEq

/-- The in-place edge pass (lines 556-575 for `edge_ir is None` edges):
remap both endpoints through `label_map`, wrap the batch indices in
singleton lists. -/
def vectorizeEdgesInPlace (st : VecPassState) (edges : List OEdge) :
    Option (List VEdge0) :=
  edges.mapM (fun e => do
    let ps ← lookupLabel st.labelMap e.source
    let pt ← lookupLabel st.labelMap e.target
    pure ⟨ps.1, pt.1, [ps.2], [pt.2], e.weight, e.delay⟩)

/-- One iteration of the `while edges` loop of `_vectorize_edges` for the
pair `(gs, gt)` (lines 687-746): collect `weight_col`, `delay_col`
(`None` delays dropped), concatenate the index lists, emit one merged
edge — or nothing when the pair has no edges (`n_edges > 0`, line 705). -/
def mergePair (es : List VEdge0) (gs gt : Nat) : List VEdgeM :=
  let cls := es.filter (fun e => e.source = gs ∧ e.target = gt)
  if cls.isEmpty then []
  else
    let weight_col := cls.map (·.weight)
    let delay_col := (cls.map (·.delay)).reduceOption
    [⟨gs, gt, (cls.map (·.sourceIdx)).flatten, (cls.map (·.targetIdx)).flatten,
      if weight_col.isEmpty then none else some weight_col,
      if delay_col.isEmpty then none else some delay_col⟩]

/-- The double loop of `optimize_graph_in_place` lines 471-473: call
`_vectorize_edges(source, target)` for every ordered pair of (collapsed)
nodes. -/
def vectorizeEdges (st : VecPassState) (es : List VEdge0) : List VEdgeM :=
  (List.range st.groups.length).flatMap (fun gs =>
    (List.range st.groups.length).flatMap (fun gt => mergePair es gs gt))

/-- `optimize_graph_in_place` (lines 457-475, default `vectorize=True`):
node pass, in-place edge pass, then pairwise edge merging. -/
def optimizeGraphInPlace (nodes : List (String × VNode)) (edges : List OEdge) :
    Option (VecPassState × List VEdgeM) := do
  let st := vectorizeNodes nodes
  let es0 ← vectorizeEdgesInPlace st edges
  pure (st, vectorizeEdges st es0)

/-- The in-place edge pass succeeds on edges whose endpoints were filed by
the node pass, producing exactly the `label_map`-remapped edges. -/
def ved0Of (st : VecPassState) (edges : List OEdge) : List VEdge0 :=
  edges.map (fun e =>
    ⟨(labelOf st e.source).1, (labelOf st e.target).1,
     [(labelOf st e.source).2], [(labelOf st e.target).2], e.weight, e.delay⟩)

theorem vectorizeEdgesInPlace_eq (st : VecPassState) (edges : List OEdge)
    (h : ∀ e ∈ edges, lookupLabel st.labelMap e.source = some (labelOf st e.source) ∧
      lookupLabel st.labelMap e.target = some (labelOf st e.target)) :
    vectorizeEdgesInPlace st edges = some (ved0Of st edges) := by
  induction edges with
  | nil => rfl
  | cons e rest ih =>
    obtain ⟨hs, ht⟩ := h e (List.mem_cons_self e rest)
    have hrest := ih (fun e2 he2 => h e2 (List.mem_cons_of_mem e he2))
    unfold vectorizeEdgesInPlace at hrest ⊢
    rw [List.mapM_cons, hs, hrest]
    simp only [Option.bind_some, Option.pure_def, Option.bind_eq_bind, ht]
    rfl

/-! ## Execution semantics of original vs. vectorized network (C1)

Modelled from the spec: the compiled network advances one state variable
per node by a per-operator-graph kernel `step og x u` of the previous
state `x` and the summed synaptic input `u`; an edge contributes
`weight * source_state` to its target (spec §3, §4.5).  A vectorized
node holds the batch of states of its members and the batched kernel
acts elementwise along the leading axis (spec §4.4); a merged edge
scatters `weight[j] * source[source_idx[j]]` into target cell
`target_idx[j]`.  Delay handling via buffered state is the open question
of spec §9 and its realization is absent from src, so the networks
quantified over carry no delays. -/

def ogOf (nodes : List (String × VNode)) (k : String) : Nat :=
  ((nodes.find? (fun p => p.1 = k)).map (fun p => p.2.opGraph)).getD 0

def initOf (nodes : List (String × VNode)) (k : String) : ℚ :=
  ((nodes.find? (fun p => p.1 = k)).map (fun p => p.2.value)).getD 0

/-- Modelled from the spec: summed input of node `k` — each in-edge
contributes its weight times the source node's state. -/
def origInput (edges : List OEdge) (xs : String → ℚ) (k : String) : ℚ :=
  ((edges.filter (fun e => e.target = k)).map (fun e => e.weight * xs e.source)).sum

/-- Modelled from the spec: state of the original network after `t` steps. -/
def origState (step : Nat → ℚ → ℚ → ℚ) (nodes : List (String × VNode))
    (edges : List OEdge) : Nat → String → ℚ
  | 0 => fun k => initOf nodes k
  | t + 1 => fun k =>
      let prev := origState step nodes edges t
      step (ogOf nodes k) (prev k) (origInput edges prev k)

def vecOg (st : VecPassState) (gi : Nat) : Nat :=
  (st.groups.getD gi ⟨0, []⟩).opGraph

def vecInit (st : VecPassState) (gi bi : Nat) : ℚ :=
  ((st.groups.getD gi ⟨0, []⟩).values[bi]?).getD 0

/-- Modelled from the spec: what a merged edge scatters into batch cell
`(gi, bi)` — position `j` of the edge sends `weight[j] * source
state at source_idx[j]` to target cell `target_idx[j]`. -/
def medgeContrib (xs : Nat → Nat → ℚ) (e : VEdgeM) (gi bi : Nat) : ℚ :=
  (((e.sourceIdx.zip e.targetIdx).zip (e.weight.getD [])).map
    (fun p => if e.target = gi ∧ p.1.2 = bi then p.2 * xs e.source p.1.1 else 0)).sum

def vecInput (ved : List VEdgeM) (xs : Nat → Nat → ℚ) (gi bi : Nat) : ℚ :=
  (ved.map (fun e => medgeContrib xs e gi bi)).sum

/-- Modelled from the spec: state of the vectorized network after `t`
steps — the batched kernel acts cellwise. -/
def vecState (step : Nat → ℚ → ℚ → ℚ) (st : VecPassState) (ved : List VEdgeM) :
    Nat → Nat → Nat → ℚ
  | 0 => fun gi bi => vecInit st gi bi
  | t + 1 => fun gi bi =>
      let prev := vecState step st ved t
      step (vecOg st gi) (prev gi bi) (vecInput ved prev gi bi)

/-- De-vectorization of one node's state through the recorded
`label_map` entry. -/
def devec (st : VecPassState) (xs : Nat → Nat → ℚ) (k : String) : Option ℚ :=
  (lookupLabel st.labelMap k).map (fun p => xs p.1 p.2)

def origSeries (step : Nat → ℚ → ℚ → ℚ) (nodes : List (String × VNode))
    (edges : List OEdge) (T : Nat) (k : String) : List ℚ :=
  (List.range T).map (fun t => origState step nodes edges t k)

def devecSeries (step : Nat → ℚ → ℚ → ℚ) (st : VecPassState) (ved : List VEdgeM)
    (T : Nat) (k : String) : Option (List ℚ) :=
  (List.range T).mapM (fun t => devec st (vecState step st ved t) k)

/-! ### Sum bookkeeping lemmas -/

theorem sum_map_add {α : Type} (l : List α) (f g : α → ℚ) :
    (l.map (fun x => f x + g x)).sum = (l.map f).sum + (l.map g).sum := by
  induction l with
  | nil => simp
  | cons a rest ih => simp [ih]; ring

theorem sum_map_ite_filter {α : Type} (l : List α) (p : α → Prop) [DecidablePred p]
    (f : α → ℚ) :
    (l.map (fun x => if p x then f x else 0)).sum = ((l.filter (fun x => p x)).map f).sum := by
  induction l with
  | nil => rfl
  | cons a rest ih =>
    by_cases hp : p a
    · simp [hp, ih]
    · simp [hp, ih]

theorem sum_range_ite (n a : Nat) (c : ℚ) :
    ((List.range n).map (fun g => if a = g then c else 0)).sum =
      if a < n then c else 0 := by
  induction n with
  | zero => simp
  | succ m ih =>
    rw [List.range_succ, List.map_append, List.sum_append, ih]
    by_cases h1 : a < m
    · simp [h1, Nat.lt_succ_of_lt h1, Nat.ne_of_lt h1]
    · by_cases h2 : a = m
      · simp [h2, Nat.lt_irrefl, Nat.lt_succ_self]
      · have : ¬ a < m + 1 := by omega
        simp [h1, h2, this]

theorem flatten_singletons {α : Type} (l : List (List α)) (f : List α → α)
    (h : ∀ x ∈ l, x = [f x]) : l.flatten = l.map f := by
  induction l with
  | nil => rfl
  | cons a rest ih =>
    rw [List.flatten_cons, List.map_cons,
      ih (fun x hx => h x (List.mem_cons_of_mem a hx))]
    conv_lhs => rw [h a (List.mem_cons_self a rest)]
    rfl

theorem sum_map_flatten {α : Type} (L : List (List α)) (f : α → ℚ) :
    (L.flatten.map f).sum = (L.map (fun l => (l.map f).sum)).sum := by
  induction L with
  | nil => rfl
  | cons l rest ih =>
    rw [List.flatten_cons, List.map_append, List.sum_append, ih, List.map_cons, List.sum_cons]

/-- The edges emitted by the in-place pass line up their three collector
lists componentwise: the merged `source_idx`/`target_idx`/`weight_col`
triples are exactly the class members' (singleton) entries. -/
theorem zip3_singletons (cls : List VEdge0)
    (h : ∀ e ∈ cls, (∃ a, e.sourceIdx = [a]) ∧ (∃ b, e.targetIdx = [b])) :
    ((cls.map (·.sourceIdx)).flatten.zip (cls.map (·.targetIdx)).flatten).zip
      (cls.map (·.weight)) =
    cls.map (fun e => ((e.sourceIdx.headD 0, e.targetIdx.headD 0), e.weight)) := by
  induction cls with
  | nil => rfl
  | cons e rest ih =>
    obtain ⟨⟨a, ha⟩, ⟨b, hb⟩⟩ := h e (List.mem_cons_self e rest)
    have ih2 := ih (fun x hx => h x (List.mem_cons_of_mem e hx))
    simp only [List.map_cons, List.flatten_cons, ha, hb, List.singleton_append,
      List.zip_cons_cons, List.headD_cons]
    rw [ih2]

theorem mergePair_contrib (es : List VEdge0)
    (hsing : ∀ e ∈ es, (∃ a, e.sourceIdx = [a]) ∧ (∃ b, e.targetIdx = [b]))
    (gs gt gi bi : Nat) (xs : Nat → Nat → ℚ) :
    ((mergePair es gs gt).map (fun m => medgeContrib xs m gi bi)).sum =
      ((es.filter (fun e => e.source = gs ∧ e.target = gt)).map
        (fun e => if gt = gi ∧ e.targetIdx.headD 0 = bi
          then e.weight * xs gs (e.sourceIdx.headD 0) else 0)).sum := by
  unfold mergePair
  by_cases hE : (es.filter (fun e => e.source = gs ∧ e.target = gt)).isEmpty
  · rw [if_pos hE, List.isEmpty_iff.mp hE]
    rfl
  · rw [if_neg hE]
    have hwne : ¬ ((es.filter (fun e => e.source = gs ∧ e.target = gt)).map
        (·.weight)).isEmpty := by
      simpa using hE
    have hsing2 : ∀ e ∈ es.filter (fun e => e.source = gs ∧ e.target = gt),
        (∃ a, e.sourceIdx = [a]) ∧ (∃ b, e.targetIdx = [b]) :=
      fun e he => hsing e (List.mem_of_mem_filter he)
    simp only [List.map_cons, List.map_nil, List.sum_cons, List.sum_nil, add_zero]
    unfold medgeContrib
    simp only [if_neg hwne, Option.getD_some]
    rw [zip3_singletons _ hsing2, List.map_map]
    rfl

theorem sum_pairs_partition (n : Nat) (es : List VEdge0) (f : VEdge0 → ℚ) :
    ((List.range n).map (fun gs => ((List.range n).map (fun gt =>
      ((es.filter (fun e => e.source = gs ∧ e.target = gt)).map f).sum)).sum)).sum =
    ((es.filter (fun e => e.source < n ∧ e.target < n)).map f).sum := by
  induction es with
  | nil => simp
  | cons e rest ih =>
    have hsplit : ∀ gs gt : Nat,
        (((e :: rest).filter (fun x => x.source = gs ∧ x.target = gt)).map f).sum
          = (if e.source = gs ∧ e.target = gt then f e else 0)
            + ((rest.filter (fun x => x.source = gs ∧ x.target = gt)).map f).sum := by
      intro gs gt
      by_cases hp : e.source = gs ∧ e.target = gt
      · simp [List.filter_cons, hp]
      · simp [List.filter_cons, hp]
    have hinner : ∀ gs : Nat,
        ((List.range n).map (fun gt =>
          (((e :: rest).filter (fun x => x.source = gs ∧ x.target = gt)).map f).sum)).sum
        = ((List.range n).map (fun gt =>
            if e.source = gs ∧ e.target = gt then f e else 0)).sum
          + ((List.range n).map (fun gt =>
              ((rest.filter (fun x => x.source = gs ∧ x.target = gt)).map f).sum)).sum := by
      intro gs
      rw [← sum_map_add]
      exact congrArg _ (List.map_congr_left (fun gt _ => hsplit gs gt))
    have hA : ∀ gs : Nat,
        ((List.range n).map (fun gt =>
          if e.source = gs ∧ e.target = gt then f e else 0)).sum
        = if e.source = gs ∧ e.target < n then f e else 0 := by
      intro gs
      by_cases hP : e.source = gs
      · simp only [hP, true_and]
        rw [sum_range_ite]
      · simp [hP]
    have houter :
        ((List.range n).map (fun gs =>
          if e.source = gs ∧ e.target < n then f e else 0)).sum
        = if e.source < n ∧ e.target < n then f e else 0 := by
      by_cases hQ : e.target < n
      · simp only [hQ, and_true]
        rw [sum_range_ite]
      · simp [hQ]
    calc ((List.range n).map (fun gs => ((List.range n).map (fun gt =>
        (((e :: rest).filter (fun x => x.source = gs ∧ x.target = gt)).map f).sum)).sum)).sum
        = ((List.range n).map (fun gs =>
            ((List.range n).map (fun gt =>
              if e.source = gs ∧ e.target = gt then f e else 0)).sum
            + ((List.range n).map (fun gt =>
                ((rest.filter (fun x => x.source = gs ∧ x.target = gt)).map f).sum)).sum)).sum := by
          exact congrArg _ (List.map_congr_left (fun gs _ => hinner gs))
      _ = ((List.range n).map (fun gs =>
            ((List.range n).map (fun gt =>
              if e.source = gs ∧ e.target = gt then f e else 0)).sum)).sum
          + ((List.range n).map (fun gs =>
              ((List.range n).map (fun gt =>
                ((rest.filter (fun x => x.source = gs ∧ x.target = gt)).map f).sum)).sum)).sum :=
          sum_map_add _ _ _
      _ = (if e.source < n ∧ e.target < n then f e else 0)
          + ((rest.filter (fun e => e.source < n ∧ e.target < n)).map f).sum := by
          rw [ih, ← houter]
          exact congrArg (· + _) (congrArg _ (List.map_congr_left (fun gs _ => hA gs)))
      _ = (((e :: rest).filter (fun e => e.source < n ∧ e.target < n)).map f).sum := by
          by_cases hp : e.source < n ∧ e.target < n
          · simp [List.filter_cons, hp]
          · simp [List.filter_cons, hp]

/-- Summed over all ordered node pairs, the merged edges deliver into any
batch cell exactly what the un-merged (in-place-pass) edges deliver. -/
theorem vecInput_merged (st : VecPassState) (es : List VEdge0)
    (hsing : ∀ e ∈ es, (∃ a, e.sourceIdx = [a]) ∧ (∃ b, e.targetIdx = [b]))
    (hbnd : ∀ e ∈ es, e.source < st.groups.length ∧ e.target < st.groups.length)
    (xs : Nat → Nat → ℚ) (gi bi : Nat) :
    vecInput (vectorizeEdges st es) xs gi bi =
      (es.map (fun e => if e.target = gi ∧ e.targetIdx.headD 0 = bi
        then e.weight * xs e.source (e.sourceIdx.headD 0) else 0)).sum := by
  have hsum : ∀ (l : List Nat) (g : Nat → List VEdgeM),
      ((l.flatMap g).map (fun m => medgeContrib xs m gi bi)).sum
        = (l.map (fun x => ((g x).map (fun m => medgeContrib xs m gi bi)).sum)).sum := by
    intro l g
    induction l with
    | nil => rfl
    | cons a rest ih =>
      rw [List.flatMap_cons, List.map_append, List.sum_append, ih, List.map_cons,
        List.sum_cons]
  unfold vecInput vectorizeEdges
  rw [hsum]
  have hstep1 : ∀ gs : Nat,
      (((List.range st.groups.length).flatMap (fun gt => mergePair es gs gt)).map
        (fun m => medgeContrib xs m gi bi)).sum
      = ((List.range st.groups.length).map (fun gt =>
          ((es.filter (fun e => e.source = gs ∧ e.target = gt)).map
            (fun e => if e.target = gi ∧ e.targetIdx.headD 0 = bi
              then e.weight * xs e.source (e.sourceIdx.headD 0) else 0)).sum)).sum := by
    intro gs
    rw [hsum]
    refine congrArg _ (List.map_congr_left (fun gt _ => ?_))
    rw [mergePair_contrib es hsing gs gt gi bi xs]
    refine congrArg _ (List.map_congr_left (fun e he => ?_))
    have hprop : e.source = gs ∧ e.target = gt := by
      simpa using (List.mem_filter.mp he).2
    rw [← hprop.1, ← hprop.2]
  refine Eq.trans (congrArg _ (List.map_congr_left (fun gs _ => hstep1 gs))) ?_
  rw [sum_pairs_partition]
  rw [List.filter_eq_self.mpr (fun e he => by simpa using hbnd e he)]

/-- The heart of C1: with all nodes filed and every edge's endpoints in
the graph, the vectorized network's batch cell of each original node
tracks that node's original state at every step. -/
theorem states_agree (step : Nat → ℚ → ℚ → ℚ) (nodes : List (String × VNode))
    (edges : List OEdge) (hnd : (nodes.map (·.1)).Nodup)
    (hends : ∀ e ∈ edges, (∃ nd, (e.source, nd) ∈ nodes) ∧ (∃ nd, (e.target, nd) ∈ nodes)) :
    ∀ (t : Nat) (k : String) (nd : VNode), (k, nd) ∈ nodes →
      vecState step (vectorizeNodes nodes)
          (vectorizeEdges (vectorizeNodes nodes) (ved0Of (vectorizeNodes nodes) edges)) t
          (labelOf (vectorizeNodes nodes) k).1 (labelOf (vectorizeNodes nodes) k).2
        = origState step nodes edges t k := by
  have hsing : ∀ e ∈ ved0Of (vectorizeNodes nodes) edges,
      (∃ a, e.sourceIdx = [a]) ∧ (∃ b, e.targetIdx = [b]) := by
    intro E hE
    obtain ⟨e, -, rfl⟩ := List.mem_map.mp hE
    exact ⟨⟨_, rfl⟩, ⟨_, rfl⟩⟩
  have hbnd : ∀ e ∈ ved0Of (vectorizeNodes nodes) edges,
      e.source < (vectorizeNodes nodes).groups.length ∧
      e.target < (vectorizeNodes nodes).groups.length := by
    intro E hE
    obtain ⟨e, he, rfl⟩ := List.mem_map.mp hE
    obtain ⟨⟨nds, hms⟩, ⟨ndt, hmt⟩⟩ := hends e he
    obtain ⟨-, hlts, -, -⟩ := labelOf_nodeDone hnd hms
    obtain ⟨-, hltt, -, -⟩ := labelOf_nodeDone hnd hmt
    exact ⟨hlts, hltt⟩
  intro t
  induction t with
  | zero =>
    intro k nd hk
    obtain ⟨-, -, -, hval⟩ := labelOf_nodeDone hnd hk
    show vecInit (vectorizeNodes nodes) _ _ = initOf nodes k
    unfold vecInit initOf
    rw [find?_nodes nodes hnd k nd hk, hval]
    rfl
  | succ t ih =>
    intro k nd hk
    obtain ⟨-, -, hog, -⟩ := labelOf_nodeDone hnd hk
    have h1 : vecOg (vectorizeNodes nodes) (labelOf (vectorizeNodes nodes) k).1
        = ogOf nodes k := by
      unfold vecOg ogOf
      rw [find?_nodes nodes hnd k nd hk, hog]
      rfl
    have h2 := ih k nd hk
    have h3 : vecInput
        (vectorizeEdges (vectorizeNodes nodes) (ved0Of (vectorizeNodes nodes) edges))
        (vecState step (vectorizeNodes nodes)
          (vectorizeEdges (vectorizeNodes nodes) (ved0Of (vectorizeNodes nodes) edges)) t)
        (labelOf (vectorizeNodes nodes) k).1 (labelOf (vectorizeNodes nodes) k).2
        = origInput edges (origState step nodes edges t) k := by
      rw [vecInput_merged _ _ hsing hbnd]
      unfold ved0Of
      rw [List.map_map]
      have hpt : ∀ e ∈ edges,
          (if (labelOf (vectorizeNodes nodes) e.target).1 = (labelOf (vectorizeNodes nodes) k).1 ∧
              ([(labelOf (vectorizeNodes nodes) e.target).2].headD 0) = (labelOf (vectorizeNodes nodes) k).2
            then e.weight * (vecState step (vectorizeNodes nodes)
              (vectorizeEdges (vectorizeNodes nodes) (ved0Of (vectorizeNodes nodes) edges)) t)
                (labelOf (vectorizeNodes nodes) e.source).1
                ([(labelOf (vectorizeNodes nodes) e.source).2].headD 0)
            else 0)
          = (if e.target = k then e.weight * origState step nodes edges t e.source else 0) := by
        intro e he
        obtain ⟨⟨nds, hms⟩, ⟨ndt, hmt⟩⟩ := hends e he
        simp only [List.headD_cons]
        by_cases hek : e.target = k
        · rw [hek, if_pos ⟨rfl, rfl⟩, if_pos rfl, ih e.source nds hms]
        · rw [if_neg ?_, if_neg hek]
          intro hc
          exact labelOf_inj hnd hmt hk hek (Prod.ext hc.1 hc.2)
      calc _ = (edges.map (fun e =>
              if e.target = k then e.weight * origState step nodes edges t e.source
              else 0)).sum :=
            congrArg List.sum (List.map_congr_left hpt)
        _ = origInput edges (origState step nodes edges t) k := by
            unfold origInput
            exact sum_map_ite_filter edges (fun e => e.target = k)
              (fun e => e.weight * origState step nodes edges t e.source)
    simp only [vecState, origState]
    rw [h1, h2, h3]

/-- Merging preserves the absence of delays: with every un-merged edge's
delay `None`, `delay_col` stays empty and the merged edge stores `None`
(lines 719-720, 740). -/
theorem reduceOption_all_none {α : Type} (l : List (Option α))
    (h : ∀ x ∈ l, x = none) : l.reduceOption = [] := by
  induction l with
  | nil => rfl
  | cons a rest ih =>
    rw [h a (List.mem_cons_self a rest), List.reduceOption_cons_of_none]
    exact ih (fun x hx => h x (List.mem_cons_of_mem a hx))

theorem vectorizeEdges_delay_none (st : VecPassState) (es : List VEdge0)
    (h : ∀ e ∈ es, e.delay = none) :
    ∀ m ∈ vectorizeEdges st es, m.delay = none := by
  intro m hm
  obtain ⟨gs, -, hm2⟩ := List.mem_flatMap.mp hm
  obtain ⟨gt, -, hm3⟩ := List.mem_flatMap.mp hm2
  unfold mergePair at hm3
  by_cases hE : (es.filter (fun e => e.source = gs ∧ e.target = gt)).isEmpty
  · rw [if_pos hE] at hm3
    simp at hm3
  · rw [if_neg hE] at hm3
    simp only [List.mem_singleton] at hm3
    subst hm3
    have hnil : ((es.filter (fun e => e.source = gs ∧ e.target = gt)).map
        (·.delay)).reduceOption = [] := by
      refine reduceOption_all_none _ (fun x hx => ?_)
      obtain ⟨e, he, rfl⟩ := List.mem_map.mp hx
      exact h e (List.mem_of_mem_filter he)
    simp only [hnil]
    rfl

theorem mapM_ofSome {α β : Type} (l : List α) (f : α → Option β) (g : α → β)
    (h : ∀ x ∈ l, f x = some (g x)) : l.mapM f = some (l.map g) := by
  induction l with
  | nil => rfl
  | cons a rest ih =>
    rw [List.mapM_cons, h a (List.mem_cons_self a rest),
      ih (fun x hx => h x (List.mem_cons_of_mem a hx))]
    rfl

/-- C1: for a network containing (at least) two structurally identical
nodes (nodes sharing one operator-graph object), with its inter-node
coupling carried by weighted, delay-free edges on the node state
variables, the vectorization pass `optimize_graph_in_place`
(ir/circuit.py lines 457-475: `_vectorize_nodes_in_place` lines 477-534,
`_vectorize_edges_in_place` lines 536-651, `_vectorize_edges` lines
655-751) succeeds, keeps the merged edges delay-free, and running the
vectorized network then de-vectorizing each original node's output
series through the recorded `label_map` reproduces the original network's
series for that node exactly — squared error `0`, below the `1e-6`
tolerance. -/
theorem claim_C1_vectorization_transparent
    (step : Nat → ℚ → ℚ → ℚ) (nodes : List (String × VNode)) (edges : List OEdge)
    (hnd : (nodes.map (·.1)).Nodup)
    (hends : ∀ e ∈ edges, (∃ nd, (e.source, nd) ∈ nodes) ∧ (∃ nd, (e.target, nd) ∈ nodes))
    (hdel : ∀ e ∈ edges, e.delay = none)
    (k1 k2 : String) (nd1 nd2 : VNode) (_h1 : (k1, nd1) ∈ nodes) (_h2 : (k2, nd2) ∈ nodes)
    (_hne : k1 ≠ k2) (_hsame : nd1.opGraph = nd2.opGraph)
    (T : Nat) (k : String) (nd : VNode) (hk : (k, nd) ∈ nodes) :
    ∃ st ved, optimizeGraphInPlace nodes edges = some (st, ved) ∧
      (∀ m ∈ ved, m.delay = none) ∧
      devecSeries step st ved T k = some (origSeries step nodes edges T k) ∧
      sumSqDiff ((devecSeries step st ved T k).getD [])
        (origSeries step nodes edges T k) = 0 ∧
      (0 : ℚ) < 1 / 1000000 := by
  have hlab : ∀ e ∈ edges,
      lookupLabel (vectorizeNodes nodes).labelMap e.source =
        some (labelOf (vectorizeNodes nodes) e.source) ∧
      lookupLabel (vectorizeNodes nodes).labelMap e.target =
        some (labelOf (vectorizeNodes nodes) e.target) := by
    intro e he
    obtain ⟨⟨nds, hms⟩, ⟨ndt, hmt⟩⟩ := hends e he
    exact ⟨(labelOf_nodeDone hnd hms).1, (labelOf_nodeDone hnd hmt).1⟩
  have hopt : optimizeGraphInPlace nodes edges =
      some (vectorizeNodes nodes,
        vectorizeEdges (vectorizeNodes nodes) (ved0Of (vectorizeNodes nodes) edges)) := by
    simp only [optimizeGraphInPlace]
    rw [vectorizeEdgesInPlace_eq (vectorizeNodes nodes) edges hlab]
    rfl
  have hser : devecSeries step (vectorizeNodes nodes)
      (vectorizeEdges (vectorizeNodes nodes) (ved0Of (vectorizeNodes nodes) edges)) T k
      = some (origSeries step nodes edges T k) := by
    unfold devecSeries origSeries
    refine mapM_ofSome _ _ (fun t => origState step nodes edges t k) ?_
    intro t ht
    unfold devec
    rw [(labelOf_nodeDone hnd hk).1, Option.map_some',
      states_agree step nodes edges hnd hends t k nd hk]
  refine ⟨vectorizeNodes nodes,
    vectorizeEdges (vectorizeNodes nodes) (ved0Of (vectorizeNodes nodes) edges),
    hopt, ?_, hser, ?_, by norm_num⟩
  · intro m hm
    refine vectorizeEdges_delay_none _ _ ?_ m hm
    intro E hE
    obtain ⟨e, he, rfl⟩ := List.mem_map.mp hE
    exact hdel e he
  · rw [hser]
    exact sumSqDiff_self _

/-- The transparency theorem at a concrete coupled network: nodes `A`
(state 1) and `B` (state 2) share operator graph `7`, one edge `A → B`
of weight `2`, accumulate kernel, three steps of node `B`'s series. -/
theorem claim_C1_witness :
    ∃ st ved,
      optimizeGraphInPlace [("A", ⟨7, 1⟩), ("B", ⟨7, 2⟩)] [⟨"A", "B", 2, none⟩]
        = some (st, ved) ∧
      (∀ m ∈ ved, m.delay = none) ∧
      devecSeries (fun _ x u => x + u) st ved 3 "B" =
        some (origSeries (fun _ x u => x + u) [("A", ⟨7, 1⟩), ("B", ⟨7, 2⟩)]
          [⟨"A", "B", 2, none⟩] 3 "B") ∧
      sumSqDiff ((devecSeries (fun _ x u => x + u) st ved 3 "B").getD [])
        (origSeries (fun _ x u => x + u) [("A", ⟨7, 1⟩), ("B", ⟨7, 2⟩)]
          [⟨"A", "B", 2, none⟩] 3 "B") = 0 ∧
      (0 : ℚ) < 1 / 1000000 :=
  claim_C1_vectorization_transparent (fun _ x u => x + u)
    [("A", ⟨7, 1⟩), ("B", ⟨7, 2⟩)] [⟨"A", "B", 2, none⟩]
    (by decide)
    (by
      intro e he
      simp only [List.mem_singleton] at he
      subst he
      exact ⟨⟨⟨7, 1⟩, by simp⟩, ⟨⟨7, 2⟩, by simp⟩⟩)
    (by
      intro e he
      simp only [List.mem_singleton] at he
      subst he
      rfl)
    "A" "B" ⟨7, 1⟩ ⟨7, 2⟩ (by simp) (by simp) (by decide) rfl
    3 "B" ⟨7, 2⟩ (by simp)

end PyRates
